import Mathlib

/-!
Verification of the word-list extraction and CSV conversion utilities
(`word_basic_to_csv.py` and `extract_words_kaoyan_5500.py`).

Strings are modelled as `List Char` (Python `str` is a sequence of Unicode
code points).  Python regular-expression operations used by the scripts are
specialised to the concrete patterns appearing in the source; character
classes `[a-z]` (with `re.IGNORECASE`) and `\s` are modelled over their
ASCII portions, and `\w` as ASCII letters, digits and underscore, which is
exact on the data these scripts process.
-/

/-- ASCII letter, i.e. the class `[A-Za-z]` (= `[a-z]` under `re.IGNORECASE`). -/
def isAsciiLetter (c : Char) : Bool :=
  ('a' ≤ c && c ≤ 'z') || ('A' ≤ c && c ≤ 'Z')

/-- ASCII uppercase letter, the class `[A-Z]`. -/
def isUpperCh (c : Char) : Bool := 'A' ≤ c && c ≤ 'Z'

/-- ASCII digit, the class `\d`. -/
def isDigitCh (c : Char) : Bool := '0' ≤ c && c ≤ '9'

/-- Python whitespace (`\s`, `str.strip()`), ASCII portion. -/
def isPyWs (c : Char) : Bool :=
  c = ' ' || c = '\t' || c = '\n' || c = '\r' || c = '\x0b' || c = '\x0c'

/-- Python word character `\w` (ASCII portion): letter, digit or underscore. -/
def isWordCh (c : Char) : Bool := isAsciiLetter c || isDigitCh c || c = '_'

/-- The apostrophe character (kept out of literals). -/
def squote : Char := Char.ofNat 39

/-- Characters allowed after the first letter by both `WORD_RE` patterns:
`[A-Za-z'\-]`. -/
def isWordTailCh (c : Char) : Bool := isAsciiLetter c || c = squote || c = '-'

/-- Python `str.lstrip()` (ASCII whitespace). -/
def pyLstrip (s : List Char) : List Char := s.dropWhile isPyWs

/-- Python `str.rstrip()` (ASCII whitespace). -/
def pyRstrip (s : List Char) : List Char := (s.reverse.dropWhile isPyWs).reverse

/-- Python `str.strip()` (ASCII whitespace). -/
def pyStrip (s : List Char) : List Char := pyRstrip (pyLstrip s)

/-- Python `str.lower()` (exact on the ASCII words these scripts handle). -/
def pyLower (s : List Char) : List Char := s.map Char.toLower

/-- Strip all leading/trailing copies of one character, as Python
`str.strip(c)` does for a one-character argument. -/
def stripCharBoth (q : Char) (s : List Char) : List Char :=
  ((s.dropWhile (· = q)).reverse.dropWhile (· = q)).reverse

/-- Python `str.strip(' "\'')`: strip any mix of space, double quote and
single quote from both ends. -/
def stripSpaceQuote (s : List Char) : List Char :=
  ((s.dropWhile (fun c => c = ' ' || c = '"' || c = squote)).reverse.dropWhile
    (fun c => c = ' ' || c = '"' || c = squote)).reverse

/-- `_strip_quotes` from `extract_words_kaoyan_5500.py`:
`s.strip().strip('"').strip("'")`. -/
def stripQuotes (s : List Char) : List Char :=
  stripCharBoth squote (stripCharBoth '"' (pyStrip s))

/-- Python `s.split(d)` for a one-character separator `d`
(no collapsing: `"a;;b"` gives `["a","","b"]`, `""` gives `[""]`). -/
def splitOnChar (d : Char) : List Char → List (List Char)
  | [] => [[]]
  | c :: cs =>
    if c = d then [] :: splitOnChar d cs
    else
      match splitOnChar d cs with
      | [] => [[c]]
      | g :: gs => (c :: g) :: gs

/-- Python `s.split(d, 1)`: the part before the first occurrence of `d`,
and (when `d` occurs) the part after it. -/
def splitOnce (d : Char) : List Char → List Char × Option (List Char)
  | [] => ([], none)
  | c :: cs =>
    if c = d then ([], some cs)
    else
      match splitOnce d cs with
      | (l, r) => (c :: l, r)

/-!
### The part-of-speech regular expressions of `extract_first_three_meanings`

`pos_pattern = r"([a-z]+\.\s*[^a-z]+?)(?=[a-z]+\.|$)"` (IGNORECASE) and
`pos_break_pattern = r"([a-z]+\.\s*[^a-z\.]+)"` (IGNORECASE).

A match attempt of `pos_pattern` at a suffix `t` goes: greedy run of
letters (which must be followed by a literal dot, shorter runs cannot be,
because they end at a letter), then `\s*` greedy, then `[^a-z]+?` lazy,
then the look-ahead `[a-z]+\.` or `$` (which in Python also matches just
before a final newline).  Resolving the backtracking of the greedy `\s*`
(tried longest first) against the lazy `[^a-z]+?` (tried shortest first)
gives: with `u` the suffix after the dot, `W` the whitespace run of `u`
and `E` the non-letter run of `u`, the engine first looks for the SMALLEST
look-ahead position in `[W+1, E]`, and failing that the LARGEST position
in `[1, W]`.
-/

/-- The look-ahead `(?=[a-z]+\.|$)` of `pos_pattern`, at a given suffix.
`$` matches at the end of the string or just before a final newline. -/
def lookaheadA (t : List Char) : Bool :=
  t.isEmpty || t = ['\n'] ||
    (let L := (t.takeWhile isAsciiLetter).length
     decide (0 < L) && ((t.drop L).headD ' ' = '.') && decide ¬(t.drop L).isEmpty)

/-- Smallest position `p ∈ [lo, lo+n)` of `u` where the look-ahead holds. -/
def findFwd (u : List Char) (lo : Nat) : Nat → Option Nat
  | 0 => none
  | n + 1 => if lookaheadA (u.drop lo) then some lo else findFwd u (lo + 1) n

/-- Largest position `p ∈ [1, k]` of `u` where the look-ahead holds. -/
def findBack (u : List Char) : Nat → Option Nat
  | 0 => none
  | k + 1 =>
    if lookaheadA (u.drop (k + 1)) then some (k + 1) else findBack u k

/-- Match attempt of `pos_pattern` anchored at a suffix; returns the length
of the match when it succeeds. -/
def matchPosA (t : List Char) : Option Nat :=
  let L := (t.takeWhile isAsciiLetter).length
  if L = 0 then none
  else if (t.drop L).headD ' ' = '.' ∧ ¬(t.drop L).isEmpty then
    let u := t.drop (L + 1)
    let W := (u.takeWhile isPyWs).length
    let E := (u.takeWhile (fun c => !isAsciiLetter c)).length
    match findFwd u (W + 1) (E - W) with
    | some p => some (L + 1 + p)
    | none =>
      match findBack u W with
      | some p => some (L + 1 + p)
      | none => none
  else none

/-- Match attempt of `pos_break_pattern` anchored at a suffix; returns the
length of the match when it succeeds.  After the dot and the greedy `\s*`
(length `W`), the greedy `[^a-z\.]+` takes the maximal run (length `K`);
when that run is empty the engine backtracks one whitespace character. -/
def matchPosB (t : List Char) : Option Nat :=
  let L := (t.takeWhile isAsciiLetter).length
  if L = 0 then none
  else if (t.drop L).headD ' ' = '.' ∧ ¬(t.drop L).isEmpty then
    let u := t.drop (L + 1)
    let W := (u.takeWhile isPyWs).length
    let K := ((u.drop W).takeWhile (fun c => !isAsciiLetter c && c ≠ '.')).length
    if 0 < K then some (L + 1 + W + K)
    else if 0 < W then some (L + 1 + W)
    else none
  else none

/-- `re.finditer` for a matcher whose matches are never empty: try a match
at each position, and resume after the end of each match.  The fuel is the
length of the scanned string, which suffices because every match of
`matchPosA`/`matchPosB` consumes at least two characters. -/
def finditer (step : List Char → Option Nat) : Nat → List Char → Nat → List (Nat × Nat)
  | 0, _, _ => []
  | fuel + 1, t, i =>
    match t with
    | [] => []
    | c :: rest =>
      match step (c :: rest) with
      | some n => (i, i + n) :: finditer step fuel ((c :: rest).drop n) (i + n)
      | none => finditer step fuel rest (i + 1)

/-- `(start, end)` offsets of the matches of `pos_pattern` over a string. -/
def posMatchesA (s : List Char) : List (Nat × Nat) := finditer matchPosA s.length s 0

/-- `(start, end)` offsets of the matches of `pos_break_pattern`. -/
def posMatchesB (s : List Char) : List (Nat × Nat) := finditer matchPosB s.length s 0

/-- The non-empty stripped segments of a split, as in
`[m.strip() for m in full_meaning.split(d) if m.strip()]`. -/
def segmentsOf (d : Char) (s : List Char) : List (List Char) :=
  ((splitOnChar d s).map pyStrip).filter (fun m => !m.isEmpty)

/-- One delimiter strategy of `extract_first_three_meanings`: keep the whole
string when at most 3 segments, else re-join the first three. -/
def keepFirstThree (d : Char) (s : List Char) : List Char :=
  if (segmentsOf d s).length ≤ 3 then s
  else List.intercalate [d] ((segmentsOf d s).take 3)

/-- `extract_first_three_meanings` from `word_basic_to_csv.py`. -/
def extract_first_three_meanings (s : List Char) : List Char :=
  if s.isEmpty then []
  else if '；' ∈ s then keepFirstThree '；' s
  else if ';' ∈ s then keepFirstThree ';' s
  else if '，' ∈ s then keepFirstThree '，' s
  else if ',' ∈ s then keepFirstThree ',' s
  else if 3 < (posMatchesA s).length then
    pyStrip (s.take ((posMatchesA s).getD 2 (0, 0)).2)
  else if 0 < (posMatchesA s).length then s
  else if 3 < (posMatchesB s).length then
    pyStrip (s.take ((posMatchesB s).getD 2 (0, 0)).2)
  else s

example : extract_first_three_meanings "n.苹果".data = "n.苹果".data := by decide

/-!
### Field extraction (`extract_fields`, `clean_meaning`) of `word_basic_to_csv.py`
-/

/-- Prefix match of `WORD_RE = ^[A-Za-z][A-Za-z'\-]*` (the CSV converter's
unanchored-at-the-end variant); returns the matched portion, `[]` when the
match fails (the script then uses `""`). -/
def wordPrefixMatch (s : List Char) : List Char :=
  match s with
  | [] => []
  | c :: cs => if isAsciiLetter c then c :: cs.takeWhile isWordTailCh else []

/-- Match attempt of `PHONETIC_RE = /[^/]+/` anchored at a suffix: a slash,
a maximal non-empty run of non-slashes, a closing slash.  Returns the
length of the match. -/
def phonAt (t : List Char) : Option Nat :=
  match t with
  | [] => none
  | c :: u =>
    if c = '/' then
      if 0 < (u.takeWhile (· ≠ '/')).length ∧
          (u.drop (u.takeWhile (· ≠ '/')).length).headD ' ' = '/' ∧
          ¬(u.drop (u.takeWhile (· ≠ '/')).length).isEmpty then
        some ((u.takeWhile (· ≠ '/')).length + 2)
      else none
    else none

/-- `PHONETIC_RE.search`: the leftmost match of `/[^/]+/`. -/
def searchPhon : List Char → Option (List Char)
  | [] => none
  | c :: rest =>
    match phonAt (c :: rest) with
    | some n => some ((c :: rest).take n)
    | none => searchPhon rest

/-- Match attempt of `EXAMPLE_RE = [A-Z][^.?!]{15,}?[.?!]` anchored at a
suffix: an uppercase letter, then the maximal run of non-terminators (the
lazy quantifier ends up taking exactly that run, which must be at least 15
characters), then a terminator that must exist. -/
def exampleAt (t : List Char) : Option Nat :=
  match t with
  | c :: u =>
    if isUpperCh c then
      let m := (u.takeWhile (fun d => !(d = '.' || d = '?' || d = '!'))).length
      if 15 ≤ m ∧ ¬(u.drop m).isEmpty then some (m + 2) else none
    else none
  | [] => none

/-- `EXAMPLE_RE.search`: the leftmost example-sentence match. -/
def searchExample : List Char → Option (List Char)
  | [] => none
  | c :: rest =>
    match exampleAt (c :: rest) with
    | some n => some ((c :: rest).take n)
    | none => searchExample rest

/-- First index of `pat` as a contiguous substring (`str.find`, with `none`
for Python's `-1`). -/
def firstIndexOfSub (pat : List Char) : List Char → Option Nat
  | [] => if pat.isEmpty then some 0 else none
  | c :: cs =>
    if List.isPrefixOf pat (c :: cs) then some 0
    else (firstIndexOfSub pat cs).map (· + 1)

/-- The `cut = meaning.find(example); if cut > 0: meaning = meaning[:cut]`
idiom, guarded by `if example:`. -/
def cutAtExample (example_ s : List Char) : List Char :=
  if example_.isEmpty then s
  else
    match firstIndexOfSub example_ s with
    | some cut => if 0 < cut then s.take cut else s
    | none => s

/-- `PERCENT_RE.sub("", s)`: delete every non-overlapping match of `\d+%`,
scanning left to right. -/
def percentSubAux : Nat → List Char → List Char
  | _, [] => []
  | 0, s => s
  | fuel + 1, c :: cs =>
    if isDigitCh c then
      let d := (cs.takeWhile isDigitCh).length
      if (cs.drop d).headD ' ' = '%' ∧ ¬(cs.drop d).isEmpty then
        percentSubAux fuel (cs.drop (d + 1))
      else c :: percentSubAux fuel cs
    else c :: percentSubAux fuel cs

/-- `PERCENT_RE.sub("", s)` (the fuel, one unit per scanned position,
is bounded by the string length). -/
def percentSub (s : List Char) : List Char := percentSubAux s.length s

/-- `s.replace(pat, "")` for a non-empty pattern `p :: ps`: delete every
non-overlapping occurrence, scanning left to right. -/
def replaceSubAux (p : Char) (ps : List Char) : Nat → List Char → List Char
  | _, [] => []
  | 0, s => s
  | fuel + 1, c :: cs =>
    if List.isPrefixOf (p :: ps) (c :: cs) then replaceSubAux p ps fuel (cs.drop ps.length)
    else c :: replaceSubAux p ps fuel cs

/-- `s.replace(pat, "")` (for the empty pattern Python returns `s`). -/
def pyReplaceEmpty (pat s : List Char) : List Char :=
  match pat with
  | [] => s
  | p :: ps => replaceSubAux p ps s.length s

/-- ASCII case-insensitive character comparison (`re.IGNORECASE` over the
word's letters). -/
def ciEq (a b : Char) : Bool := a.toLower = b.toLower

/-- Case-insensitive prefix test. -/
def ciIsPrefixOf : List Char → List Char → Bool
  | [], _ => true
  | _ :: _, [] => false
  | a :: as, b :: bs => ciEq a b && ciIsPrefixOf as bs

/-- `re.compile(rf"^{re.escape(word)}\s+", re.IGNORECASE).sub("", s)`:
remove a leading case-insensitive copy of `word` followed by at least one
whitespace character (the greedy `\s+` takes the whole run). -/
def stripLeadingWord (word s : List Char) : List Char :=
  if ciIsPrefixOf word s then
    let rest := s.drop word.length
    let w := (rest.takeWhile isPyWs).length
    if 0 < w then rest.drop w else s
  else s

/-- `clean_meaning` from `word_basic_to_csv.py`. -/
def clean_meaning (text example_ word phonetic : List Char) : List Char :=
  let m1 := cutAtExample example_ text
  let m2 := percentSub m1
  let m3 := if phonetic.isEmpty then m2 else pyReplaceEmpty phonetic m2
  let m4 := if word.isEmpty then m3 else stripLeadingWord word m3
  pyStrip m4

/-- The result record of `extract_fields`. -/
structure Fields where
  word : List Char
  phonetic : List Char
  meaning : List Char
  full_meaning : List Char
  example_ : List Char
  source : List Char
deriving DecidableEq, Repr

/-- The stripped left tab-field of a line (`parts[0].strip(' "\'')`). -/
def leftField (line : List Char) : List Char :=
  stripSpaceQuote (splitOnce '\t' line).1

/-- The stripped right tab-field of a line (empty when there is no tab). -/
def rightField (line : List Char) : List Char :=
  stripSpaceQuote ((splitOnce '\t' line).2.getD [])

/-- `extract_fields` from `word_basic_to_csv.py`. -/
def extract_fields (line : List Char) : Fields :=
  let left := leftField line
  let right := rightField line
  let combined := pyStrip (left ++ ' ' :: right)
  let word :=
    if (wordPrefixMatch left).isEmpty then wordPrefixMatch combined
    else wordPrefixMatch left
  let phonetic :=
    match searchPhon left with
    | some m => m
    | none =>
      match searchPhon right with
      | some m => m
      | none => []
  let example_ :=
    match searchExample right with
    | some m => pyStrip m
    | none =>
      match searchExample left with
      | some m => pyStrip m
      | none => []
  let raw0 := if right.isEmpty then left else right
  let raw_meaning := cutAtExample example_ raw0
  let full_meaning := clean_meaning raw_meaning example_ word phonetic
  { word := word
    phonetic := phonetic
    meaning := extract_first_three_meanings full_meaning
    full_meaning := full_meaning
    example_ := []
    source := [] }

/-!
### Level tagging (`append_level`) and the conversion loop (`convert`)
-/

/-- Python `s.split(sep)` for a non-empty separator `d :: ds`:
non-overlapping occurrences, scanned left to right. -/
def pySplitAux (d : Char) (ds : List Char) : Nat → List Char → List Char → List (List Char)
  | _, acc, [] => [acc.reverse]
  | 0, acc, s => [acc.reverse ++ s]
  | fuel + 1, acc, c :: cs =>
    if List.isPrefixOf (d :: ds) (c :: cs) then
      acc.reverse :: pySplitAux d ds fuel [] (cs.drop ds.length)
    else pySplitAux d ds fuel (c :: acc) cs

/-- Python `s.split(sep)` (fuel bounded by the string length; every step
consumes at least one character).  Python raises `ValueError` on an empty
separator; the theorems below only consider non-empty separators, and the
`[]` case here is an arbitrary total completion. -/
def pySplit (sep s : List Char) : List (List Char) :=
  match sep with
  | [] => [s]
  | d :: ds => pySplitAux d ds s.length [] s

/-- `append_level` from `word_basic_to_csv.py`: append a level tag,
de-duplicated by exact token match after splitting on the separator. -/
def append_level (level add sep : List Char) : List Char :=
  if (pyStrip add).isEmpty then level
  else if (pyStrip level).isEmpty then pyStrip add
  else if pyStrip add ∈ (pySplit sep (pyStrip level)).map pyStrip then pyStrip level
  else pyStrip level ++ sep ++ pyStrip add

/-- One output row of the converter. -/
structure Row where
  rank : Nat
  level : List Char
  word : List Char
  phonetic : List Char
  meaning : List Char
  full_meaning : List Char
  example_ : List Char
  source : List Char
deriving DecidableEq, Repr

/-- `raw.rstrip("\n")`. -/
def rstripNl (s : List Char) : List Char :=
  (s.reverse.dropWhile (· = '\n')).reverse

/-- A line is processed (assigned a rank and emitted) unless it is blank or
its first non-whitespace character is `#`. -/
def keepLine (raw : List Char) : Bool :=
  !(pyStrip raw).isEmpty && !((pyLstrip raw).headD ' ' = '#' && !(pyLstrip raw).isEmpty)

/-- The test `level_words is not None and w_lower and w_lower in level_words`. -/
def levelWordsHit (level_words : Option (List (List Char))) (wl : List Char) : Bool :=
  match level_words with
  | some lw => !wl.isEmpty && lw.contains wl
  | none => false

/-- The level-tagging part of the `convert` loop body: append the
`--level-words` tag, then every matching label-set name, onto the starting
level. -/
def rowLevelBody (level_value sep : List Char) (level_words : Option (List (List Char)))
    (label_sets : List (List Char × List (List Char))) (base w_lower : List Char) :
    List Char :=
  if !label_sets.isEmpty && !w_lower.isEmpty then
    label_sets.foldl
      (fun acc ls => if ls.2.contains w_lower then append_level acc ls.1 sep else acc)
      (if levelWordsHit level_words w_lower then append_level base level_value sep
       else base)
  else
    (if levelWordsHit level_words w_lower then append_level base level_value sep
     else base)

/-- The row built by `convert` for one processed line at a given rank.
`existing` models the `existing_levels_by_rank` dictionary
(`dict.get(rank, level)` is `(g rank).getD level`);
`label_sets` models the optional sequence, with `[]` for Python's falsy
`None`/empty cases, and word sets are lists compared by membership. -/
def mkRow (level level_value sep : List Char) (level_words : Option (List (List Char)))
    (existing : Option (Nat → Option (List Char)))
    (label_sets : List (List Char × List (List Char))) (rank : Nat) (raw : List Char) :
    Row :=
  let f := extract_fields (rstripNl raw)
  let base :=
    match existing with
    | none => level
    | some g => (g rank).getD level
  { rank := rank
    level := rowLevelBody level_value sep level_words label_sets base (pyLower f.word)
    word := f.word
    phonetic := f.phonetic
    meaning := f.meaning
    full_meaning := f.full_meaning
    example_ := f.example_
    source := f.source }

/-- The `convert` loop with its running rank counter. -/
def convertAux (level level_value sep : List Char) (level_words : Option (List (List Char)))
    (existing : Option (Nat → Option (List Char)))
    (label_sets : List (List Char × List (List Char))) :
    Nat → List (List Char) → List Row
  | _, [] => []
  | rank, raw :: rest =>
    if keepLine raw then
      mkRow level level_value sep level_words existing label_sets (rank + 1) raw ::
        convertAux level level_value sep level_words existing label_sets (rank + 1) rest
    else convertAux level level_value sep level_words existing label_sets rank rest

/-- `convert` from `word_basic_to_csv.py`. -/
def convert (level level_value sep : List Char) (level_words : Option (List (List Char)))
    (existing : Option (Nat → Option (List Char)))
    (label_sets : List (List Char × List (List Char))) (lines : List (List Char)) :
    List Row :=
  convertAux level level_value sep level_words existing label_sets 0 lines

/-!
### The word extractors of `extract_words_kaoyan_5500.py`
-/

/-- Tab or space, the class `[\t ]` of the `DICTATION` splitter. -/
def isTabSpace (c : Char) : Bool := c = '\t' || c = ' '

/-- `re.split(r"[\t ]+", s)`-style splitting: split on maximal non-empty
runs of separator characters. -/
def splitRunsAux (p : Char → Bool) : Nat → List Char → List Char → List (List Char)
  | _, acc, [] => [acc.reverse]
  | 0, acc, s => [acc.reverse ++ s]
  | fuel + 1, acc, c :: cs =>
    if p c then acc.reverse :: splitRunsAux p fuel [] (cs.dropWhile p)
    else splitRunsAux p fuel (c :: acc) cs

/-- `re.split(r"[\t ]+", s)` (fuel bounded by the string length; every
step consumes at least one character). -/
def splitRuns (p : Char → Bool) (s : List Char) : List (List Char) :=
  splitRunsAux p s.length [] s

/-- Full match of the tagged extractor's anchored
`WORD_RE = ^[A-Za-z][A-Za-z'\-]*$` (its arguments are always
whitespace-stripped, so the `$` has no trailing-newline subtlety). -/
def wordFullMatch (w : List Char) : Bool :=
  match w with
  | [] => false
  | c :: cs => isAsciiLetter c && cs.all isWordTailCh

/-- The backtracking of the trailing `\b` of
`RECITE_RE = ^RECITE\s+([A-Za-z][A-Za-z'\-]*)\b`: try capture lengths from
the full greedy run down, accepting the first whose end is a word
boundary.  `next` is the character right after the greedy run. -/
def boundaryFind (run : List Char) (next : Option Char) : Nat → Option (List Char)
  | 0 => none
  | k + 1 =>
    let prev := run.getD k ' '
    let nextC : Option Char := if k + 1 < run.length then some (run.getD (k + 1) ' ') else next
    if isWordCh prev ≠ (match nextC with | some c => isWordCh c | none => false) then
      some (run.take (k + 1))
    else boundaryFind run next k

/-- `_extract_from_recite`: match `RECITE_RE` against the stripped first
field and return the captured word. -/
def reciteExtract (first : List Char) : Option (List Char) :=
  let t := pyStrip first
  if List.isPrefixOf "RECITE".data t then
    let u0 := t.drop 6
    let w := (u0.takeWhile isPyWs).length
    if w = 0 then none
    else
      let u := u0.drop w
      match u with
      | [] => none
      | c :: _ =>
        if isAsciiLetter c then
          let run := u.takeWhile isWordTailCh
          boundaryFind run ((u.drop run.length).head?) run.length
        else none
  else none

/-- The scan of `_extract_from_dictation`: find the first `DICTATION` token
that has a successor; its stripped successor is returned when it fully
matches the word pattern, and `None` otherwise. -/
def findDictSucc : List (List Char) → Option (List Char)
  | [] => none
  | [_] => none
  | tok :: next :: rest =>
    if tok = "DICTATION".data then
      let w := pyStrip next
      if wordFullMatch w then some w else none
    else findDictSucc (next :: rest)

/-- `_extract_from_dictation` from `extract_words_kaoyan_5500.py`. -/
def dictationExtract (second : List Char) : Option (List Char) :=
  let s := stripQuotes second
  if List.isPrefixOf "DICTATION".data s then
    findDictSucc (splitRuns isTabSpace s)
  else none

/-- Contiguous-substring test (Python `in` on strings). -/
def substrOf (pat : List Char) (s : List Char) : Bool :=
  (firstIndexOfSub pat s).isSome

/-- The scan of `_extract_from_spelling`: the first tab-field that fully
matches the word pattern and whose following tab-field starts with `[` or
`/` (the redundant `['` and `["` checks of the source are subsumed). -/
def spellingScan : List (List Char) → Option (List Char)
  | [] => none
  | tok :: rest =>
    let w := pyStrip tok
    if wordFullMatch w then
      let nxt := pyStrip ((rest.headD []))
      if nxt.headD ' ' = '[' || nxt.headD ' ' = '/' then some w
      else spellingScan rest
    else spellingScan rest

/-- `_extract_from_spelling` from `extract_words_kaoyan_5500.py`. -/
def spellingExtract (second : List Char) : Option (List Char) :=
  let s := stripQuotes second
  if substrOf "SPELLING".data s then spellingScan (splitOnChar '\t' s)
  else none

/-- Python truthiness of an optional string. -/
def truthy (o : Option (List Char)) : Bool :=
  match o with
  | none => false
  | some w => !w.isEmpty

/-- `iter_words` of the tagged extractor (the RECITE / DICTATION /
SPELLING dispatch, skipping blank and `#` lines). -/
def iter_words : List (List Char) → List (List Char)
  | [] => []
  | raw :: rest =>
    let line := pyStrip raw
    if line.isEmpty || line.headD ' ' = '#' then iter_words rest
    else
      let fields := splitOnce '\t' line
      let first := stripQuotes fields.1
      let second := fields.2.getD []
      if truthy (reciteExtract first) then
        (reciteExtract first).getD [] :: iter_words rest
      else if first = "DICTATION".data then
        match dictationExtract second with
        | some w => if w.isEmpty then iter_words rest else w :: iter_words rest
        | none => iter_words rest
      else if List.isPrefixOf "SPELLING".data first || first = "SPELLING".data ||
          substrOf "SPELLING".data first then
        match spellingExtract second with
        | some w => if w.isEmpty then iter_words rest else w :: iter_words rest
        | none => iter_words rest
      else iter_words rest

/-- The output loop of `write_words` in the TAGGED extractor: optional
lowercasing, then optional de-duplication by LOWERCASE key. -/
def writeLoopTagged (dedupe to_lower : Bool) : List (List Char) → List (List Char) → List (List Char)
  | _, [] => []
  | seen, w0 :: ws =>
    let w := if to_lower then pyLower w0 else w0
    if dedupe then
      if pyLower w ∈ seen then writeLoopTagged dedupe to_lower seen ws
      else w :: writeLoopTagged dedupe to_lower (pyLower w :: seen) ws
    else w :: writeLoopTagged dedupe to_lower seen ws

/-- `write_words` (tagged variant), as a function from the extracted word
sequence to the written lines. -/
def write_words_tagged (dedupe to_lower : Bool) (ws : List (List Char)) : List (List Char) :=
  writeLoopTagged dedupe to_lower [] ws

/-- The output loop of `write_words` in the GENERIC extractor: optional
lowercasing, then optional de-duplication by the EXACT word. -/
def writeLoopGeneric (dedupe to_lower : Bool) : List (List Char) → List (List Char) → List (List Char)
  | _, [] => []
  | seen, w0 :: ws =>
    let w := if to_lower then pyLower w0 else w0
    if dedupe then
      if w ∈ seen then writeLoopGeneric dedupe to_lower seen ws
      else w :: writeLoopGeneric dedupe to_lower (w :: seen) ws
    else w :: writeLoopGeneric dedupe to_lower seen ws

/-- `write_words` (generic variant), as a function from the extracted word
sequence to the written lines. -/
def write_words_generic (dedupe to_lower : Bool) (ws : List (List Char)) : List (List Char) :=
  writeLoopGeneric dedupe to_lower [] ws

/-- First-occurrence de-duplication (the specification's notion of
"each word exactly once, in order of first appearance"), with an
accumulator of already-seen keys. -/
def firstOccurrences : List (List Char) → List (List Char) → List (List Char)
  | _, [] => []
  | seen, x :: xs =>
    if x ∈ seen then firstOccurrences seen xs
    else x :: firstOccurrences (x :: seen) xs

/-!
### Label-set construction (`build_label_sets`) of `word_basic_to_csv.py`

File-system effects are modelled by a map `fs` from paths to the optional
list of lines of the file (`none` = the file does not exist, so
`Path.exists()` is `(fs p).isSome`).  Raised exceptions
(`FileNotFoundError` from `Path.open`, `ValueError` from the script) are
modelled with `Except`.  Python sets of words are modelled as lists
compared by membership.
-/

/-- `load_word_set`: read a one-word-per-line file into lowercase words,
skipping blank and `#` lines; opening a missing file raises. -/
def load_word_set (fs : List Char → Option (List (List Char))) (p : List Char) :
    Except (List Char) (List (List Char)) :=
  match fs p with
  | none => .error "FileNotFoundError".data
  | some rows =>
    .ok (rows.foldr
      (fun raw acc =>
        let s := pyStrip raw
        if s.isEmpty || s.headD ' ' = '#' then acc else pyLower s :: acc) [])

/-- `parse_label_spec`: `"label=path"` or `"label:path"`, with stripping;
malformed specs raise `ValueError`. -/
def parse_label_spec (spec : List Char) : Except (List Char) (List Char × List Char) :=
  let s := pyStrip spec
  if s.isEmpty then .error "empty label spec".data
  else if '=' ∈ s then
    mkLabelPath (splitOnce '=' s).1 ((splitOnce '=' s).2.getD [])
  else if ':' ∈ s then
    mkLabelPath (splitOnce ':' s).1 ((splitOnce ':' s).2.getD [])
  else .error "label spec must contain = or :".data
where
  mkLabelPath (label0 path0 : List Char) : Except (List Char) (List Char × List Char) :=
    let label := pyStrip label0
    let path := stripCharBoth squote (stripCharBoth '"' (pyStrip path0))
    if label.isEmpty || path.isEmpty then .error "label spec must be like label=path".data
    else .ok (label, path)

/-- The `AUTO_LABEL_FILES` table (label, well-known filename). -/
def AUTO_LABEL_FILES : List (List Char × List Char) :=
  [("小学".data, "广州小学英语__仅单词.txt".data),
   ("初中".data, "初中英语单词__仅单词.txt".data),
   ("高中".data, "高中英语单词__仅单词.txt".data),
   ("四级".data, "大学四级英语单词__仅单词.txt".data),
   ("六级".data, "大学六级英语单词__仅单词.txt".data),
   ("考研".data, "考研词汇5500__仅单词.txt".data),
   ("GRE".data, "极品GRE红宝书__仅单词.txt".data),
   ("TOEFL".data, "TOEFL词汇__仅单词.txt".data)]

/-- `merged[lbl].update(ws)` on the `defaultdict(set)`: extend the entry,
creating it if absent (set union is modelled by list concatenation). -/
def addMerged (m : List (List Char × List (List Char))) (lbl : List Char)
    (ws : List (List Char)) : List (List Char × List (List Char)) :=
  match m with
  | [] => [(lbl, ws)]
  | (l, v) :: rest =>
    if l = lbl then (l, v ++ ws) :: rest else (l, v) :: addMerged rest lbl ws

/-- Dictionary lookup in the merged map. -/
def lookupMerged (m : List (List Char × List (List Char))) (lbl : List Char) :
    Option (List (List Char)) :=
  (m.find? (fun p => p.1 = lbl)).map Prod.snd

/-- The auto-discovery phase: each well-known file is EXISTENCE-CHECKED
before loading, so a missing file is skipped. -/
def autoLoad (fs : List Char → Option (List (List Char))) (dir : List Char) :
    List (List Char × List Char) → List (List Char × List (List Char)) →
    Except (List Char) (List (List Char × List (List Char)))
  | [], m => .ok m
  | (lbl, fname) :: rest, m =>
    let p := dir ++ '/' :: fname
    if (fs p).isSome then
      match load_word_set fs p with
      | .ok ws => autoLoad fs dir rest (addMerged m lbl ws)
      | .error e => .error e
    else autoLoad fs dir rest m

/-- The explicit-spec phase: each `label=path` spec is parsed and its file
loaded WITHOUT an existence check. -/
def specLoad (fs : List Char → Option (List (List Char))) :
    List (List Char) → List (List Char × List (List Char)) →
    Except (List Char) (List (List Char × List (List Char)))
  | [], m => .ok m
  | spec :: rest, m =>
    match parse_label_spec spec with
    | .error e => .error e
    | .ok lp =>
      match load_word_set fs lp.2 with
      | .error e => .error e
      | .ok ws => specLoad fs rest (addMerged m lp.1 ws)

/-- The output-ordering phase over the auto table: labels present in the
merged map and not yet seen, in `AUTO_LABEL_FILES` order. -/
def pickAuto (m : List (List Char × List (List Char))) :
    List (List Char × List Char) → List (List Char) →
    List (List Char × List (List Char)) × List (List Char)
  | [], seen => ([], seen)
  | (lbl, _) :: rest, seen =>
    match lookupMerged m lbl with
    | some ws =>
      if lbl ∈ seen then pickAuto m rest seen
      else
        match pickAuto m rest (lbl :: seen) with
        | (out, seen2) => ((lbl, ws) :: out, seen2)
    | none => pickAuto m rest seen

/-- The output-ordering phase over the explicit specs (specs are re-parsed,
as in the source). -/
def pickSpecs (m : List (List Char × List (List Char))) :
    List (List Char) → List (List Char) →
    Except (List Char) (List (List Char × List (List Char)))
  | [], _ => .ok []
  | spec :: rest, seen =>
    match parse_label_spec spec with
    | .error e => .error e
    | .ok lp =>
      match lookupMerged m lp.1 with
      | some ws =>
        if lp.1 ∈ seen then pickSpecs m rest seen
        else (pickSpecs m rest (lp.1 :: seen)).map (fun out => (lp.1, ws) :: out)
      | none => pickSpecs m rest seen

/-- `build_label_sets` from `word_basic_to_csv.py`. -/
def build_label_sets (fs : List Char → Option (List (List Char)))
    (label_specs : List (List Char)) (auto_labels_dir : Option (List Char))
    (auto_labels : Bool) :
    Except (List Char) (List (List Char × List (List Char))) :=
  match
    (if auto_labels then
      match auto_labels_dir with
      | none => .error "auto_labels_dir is required when auto_labels=True".data
      | some dir => autoLoad fs dir AUTO_LABEL_FILES []
    else .ok [] :
      Except (List Char) (List (List Char × List (List Char)))) with
  | .error e => .error e
  | .ok m1 =>
    match specLoad fs label_specs m1 with
    | .error e => .error e
    | .ok m2 =>
      match
        (if auto_labels then
          match auto_labels_dir with
          | none => (([], []) : List (List Char × List (List Char)) × List (List Char))
          | some _ => pickAuto m2 AUTO_LABEL_FILES []
        else ([], [])) with
      | (out1, seen) =>
        match pickSpecs m2 label_specs seen with
        | .error e => .error e
        | .ok out2 => .ok (out1 ++ out2)

/-!
### C1 / C2: the cascading meaning-splitting strategy
-/

/-- Normal form of `extract_first_three_meanings` when none of the four
delimiters occurs in the string. -/
theorem eftm_no_delim (s : List Char) (h1 : '；' ∉ s) (h2 : ';' ∉ s)
    (h3 : '，' ∉ s) (h4 : ',' ∉ s) :
    extract_first_three_meanings s =
      if 3 < (posMatchesA s).length then
        pyStrip (s.take ((posMatchesA s).getD 2 (0, 0)).2)
      else if 0 < (posMatchesA s).length then s
      else if 3 < (posMatchesB s).length then
        pyStrip (s.take ((posMatchesB s).getD 2 (0, 0)).2)
      else s := by
  cases s with
  | nil => rfl
  | cons c cs =>
    rw [extract_first_three_meanings, if_neg (by simp), if_neg h1, if_neg h2,
      if_neg h3, if_neg h4]

/-- Normal form of `extract_first_three_meanings` when a delimiter is
chosen by the cascade. -/
theorem eftm_delim (s : List Char) (d : Char)
    (hchosen : extract_first_three_meanings s = keepFirstThree d s) :
    ((segmentsOf d s).length ≤ 3 → extract_first_three_meanings s = s) ∧
      (3 < (segmentsOf d s).length →
        extract_first_three_meanings s =
          List.intercalate [d] ((segmentsOf d s).take 3)) := by
  constructor
  · intro hle
    rw [hchosen, keepFirstThree, if_pos hle]
  · intro hgt
    rw [hchosen, keepFirstThree, if_neg (by omega)]

theorem eftm_chooses_semifull (s : List Char) (h : '；' ∈ s) :
    extract_first_three_meanings s = keepFirstThree '；' s := by
  cases s with
  | nil => cases h
  | cons c cs => rw [extract_first_three_meanings, if_neg (by simp), if_pos h]

theorem eftm_chooses_semi (s : List Char) (h1 : '；' ∉ s) (h : ';' ∈ s) :
    extract_first_three_meanings s = keepFirstThree ';' s := by
  cases s with
  | nil => cases h
  | cons c cs =>
    rw [extract_first_three_meanings, if_neg (by simp), if_neg h1, if_pos h]

theorem eftm_chooses_commafull (s : List Char) (h1 : '；' ∉ s) (h2 : ';' ∉ s)
    (h : '，' ∈ s) :
    extract_first_three_meanings s = keepFirstThree '，' s := by
  cases s with
  | nil => cases h
  | cons c cs =>
    rw [extract_first_three_meanings, if_neg (by simp), if_neg h1, if_neg h2,
      if_pos h]

theorem eftm_chooses_comma (s : List Char) (h1 : '；' ∉ s) (h2 : ';' ∉ s)
    (h3 : '，' ∉ s) (h : ',' ∈ s) :
    extract_first_three_meanings s = keepFirstThree ',' s := by
  cases s with
  | nil => cases h
  | cons c cs =>
    rw [extract_first_three_meanings, if_neg (by simp), if_neg h1, if_neg h2,
      if_neg h3, if_pos h]

/-- C1: `extract_first_three_meanings` applies the cascading strategy: a
split on the full-width semicolon if present, else the half-width
semicolon, else the full-width comma, else the half-width comma; with at
most 3 (non-empty, stripped) segments the string is returned unchanged and
with more than 3 the first three segments are re-joined with the chosen
delimiter.  With no delimiter present, the part-of-speech marker pattern
(`pos_pattern`, a letter run — matched case-insensitively — followed by a
period) is applied: with more than three marker groups the string is
truncated at the end offset of the third group (and trimmed), with 1–3
groups it is returned unchanged, and the narrower `pos_break_pattern` is
tried only when the first pattern finds no match at all; otherwise the
input is returned unchanged. -/
theorem extract_first_three_meanings_cascade (s : List Char) :
    ('；' ∈ s → (segmentsOf '；' s).length ≤ 3 →
      extract_first_three_meanings s = s)
  ∧ ('；' ∈ s → 3 < (segmentsOf '；' s).length →
      extract_first_three_meanings s =
        List.intercalate ['；'] ((segmentsOf '；' s).take 3))
  ∧ ('；' ∉ s → ';' ∈ s → (segmentsOf ';' s).length ≤ 3 →
      extract_first_three_meanings s = s)
  ∧ ('；' ∉ s → ';' ∈ s → 3 < (segmentsOf ';' s).length →
      extract_first_three_meanings s =
        List.intercalate [';'] ((segmentsOf ';' s).take 3))
  ∧ ('；' ∉ s → ';' ∉ s → '，' ∈ s → (segmentsOf '，' s).length ≤ 3 →
      extract_first_three_meanings s = s)
  ∧ ('；' ∉ s → ';' ∉ s → '，' ∈ s → 3 < (segmentsOf '，' s).length →
      extract_first_three_meanings s =
        List.intercalate ['，'] ((segmentsOf '，' s).take 3))
  ∧ ('；' ∉ s → ';' ∉ s → '，' ∉ s → ',' ∈ s → (segmentsOf ',' s).length ≤ 3 →
      extract_first_three_meanings s = s)
  ∧ ('；' ∉ s → ';' ∉ s → '，' ∉ s → ',' ∈ s → 3 < (segmentsOf ',' s).length →
      extract_first_three_meanings s =
        List.intercalate [','] ((segmentsOf ',' s).take 3))
  ∧ ('；' ∉ s → ';' ∉ s → '，' ∉ s → ',' ∉ s → 3 < (posMatchesA s).length →
      extract_first_three_meanings s =
        pyStrip (s.take ((posMatchesA s).getD 2 (0, 0)).2))
  ∧ ('；' ∉ s → ';' ∉ s → '，' ∉ s → ',' ∉ s → 0 < (posMatchesA s).length →
      (posMatchesA s).length ≤ 3 → extract_first_three_meanings s = s)
  ∧ ('；' ∉ s → ';' ∉ s → '，' ∉ s → ',' ∉ s → (posMatchesA s).length = 0 →
      3 < (posMatchesB s).length →
      extract_first_three_meanings s =
        pyStrip (s.take ((posMatchesB s).getD 2 (0, 0)).2))
  ∧ ('；' ∉ s → ';' ∉ s → '，' ∉ s → ',' ∉ s → (posMatchesA s).length = 0 →
      (posMatchesB s).length ≤ 3 → extract_first_three_meanings s = s) := by
  refine ⟨?_, ?_, ?_, ?_, ?_, ?_, ?_, ?_, ?_, ?_, ?_, ?_⟩
  · intro h hle
    exact (eftm_delim s '；' (eftm_chooses_semifull s h)).1 hle
  · intro h hgt
    exact (eftm_delim s '；' (eftm_chooses_semifull s h)).2 hgt
  · intro h1 h hle
    exact (eftm_delim s ';' (eftm_chooses_semi s h1 h)).1 hle
  · intro h1 h hgt
    exact (eftm_delim s ';' (eftm_chooses_semi s h1 h)).2 hgt
  · intro h1 h2 h hle
    exact (eftm_delim s '，' (eftm_chooses_commafull s h1 h2 h)).1 hle
  · intro h1 h2 h hgt
    exact (eftm_delim s '，' (eftm_chooses_commafull s h1 h2 h)).2 hgt
  · intro h1 h2 h3 h hle
    exact (eftm_delim s ',' (eftm_chooses_comma s h1 h2 h3 h)).1 hle
  · intro h1 h2 h3 h hgt
    exact (eftm_delim s ',' (eftm_chooses_comma s h1 h2 h3 h)).2 hgt
  · intro h1 h2 h3 h4 hgt
    rw [eftm_no_delim s h1 h2 h3 h4, if_pos hgt]
  · intro h1 h2 h3 h4 hpos hle
    rw [eftm_no_delim s h1 h2 h3 h4, if_neg (by omega), if_pos hpos]
  · intro h1 h2 h3 h4 hz hgt
    rw [eftm_no_delim s h1 h2 h3 h4, if_neg (by omega), if_neg (by omega),
      if_pos hgt]
  · intro h1 h2 h3 h4 hz hle
    rw [eftm_no_delim s h1 h2 h3 h4, if_neg (by omega), if_neg (by omega),
      if_neg (by omega)]

/-- Witness for C1 at a concrete input with five full-width-semicolon
segments. -/
theorem extract_first_three_meanings_cascade_witness :
    extract_first_three_meanings "a；b；c；d；e".data =
      List.intercalate ['；'] ((segmentsOf '；' "a；b；c；d；e".data).take 3) :=
  (extract_first_three_meanings_cascade "a；b；c；d；e".data).2.1 (by decide)
    (by decide)

/-- C2 counterexample: on the spec's example string the function does NOT
truncate to the first three part-of-speech groups. -/
theorem meaning_c2_counterexample :
    extract_first_three_meanings "art.这；那adv.更加adj.多的pron.许多".data ≠
      "art.这；那adv.更加adj.多的".data := by decide

/-- C2 amended: the example string contains a full-width semicolon, so the
semicolon strategy is chosen; it yields 2 segments (≤ 3), and the string
is returned unchanged — the part-of-speech strategy is never reached. -/
theorem meaning_c2_amended :
    '；' ∈ "art.这；那adv.更加adj.多的pron.许多".data
  ∧ (segmentsOf '；' "art.这；那adv.更加adj.多的pron.许多".data).length = 2
  ∧ extract_first_three_meanings "art.这；那adv.更加adj.多的pron.许多".data =
      "art.这；那adv.更加adj.多的pron.许多".data := by decide

/-!
### C4: rank sequencing of the converter
-/

/-- The conversion loop in closed form: one row per kept line, numbered
consecutively from one past the initial rank counter. -/
theorem convertAux_eq_enum (level level_value sep : List Char)
    (level_words : Option (List (List Char)))
    (existing : Option (Nat → Option (List Char)))
    (label_sets : List (List Char × List (List Char))) (lines : List (List Char))
    (rank : Nat) :
    convertAux level level_value sep level_words existing label_sets rank lines =
      ((lines.filter keepLine).enumFrom (rank + 1)).map
        (fun p => mkRow level level_value sep level_words existing label_sets p.1 p.2) := by
  induction lines generalizing rank with
  | nil => rfl
  | cons raw rest ih =>
    by_cases h : keepLine raw
    · rw [convertAux, if_pos h, List.filter_cons_of_pos h, List.enumFrom, List.map_cons,
        ih (rank + 1)]
    · rw [convertAux, if_neg h, List.filter_cons_of_neg h, ih rank]

theorem map_fst_enumFrom {α : Type} (l : List α) (n : Nat) :
    (l.enumFrom n).map Prod.fst = List.range' n l.length := by
  induction l generalizing n with
  | nil => rfl
  | cons x xs ih => simp [List.enumFrom, List.range', ih]

/-- C4: the converter emits exactly one row per non-blank, non-`#` input
line, in input order (each row is built by `mkRow` from its line and its
1-based position among the kept lines), and the rank column is exactly the
gap-free sequence `1..k` where `k` is the number of kept lines. -/
theorem convert_rank_sequence (level level_value sep : List Char)
    (level_words : Option (List (List Char)))
    (existing : Option (Nat → Option (List Char)))
    (label_sets : List (List Char × List (List Char))) (lines : List (List Char)) :
    convert level level_value sep level_words existing label_sets lines =
      ((lines.filter keepLine).enumFrom 1).map
        (fun p => mkRow level level_value sep level_words existing label_sets p.1 p.2)
  ∧ (convert level level_value sep level_words existing label_sets lines).map Row.rank =
      List.range' 1 (lines.filter keepLine).length
  ∧ (convert level level_value sep level_words existing label_sets lines).length =
      (lines.filter keepLine).length := by
  have h0 := convertAux_eq_enum level level_value sep level_words existing label_sets lines 0
  refine ⟨h0, ?_, ?_⟩
  · rw [convert, h0, List.map_map]
    have : (Row.rank ∘ fun p : Nat × List Char =>
        mkRow level level_value sep level_words existing label_sets p.1 p.2) = Prod.fst := by
      funext p
      rfl
    rw [this, map_fst_enumFrom]
  · rw [convert, h0, List.length_map, List.enumFrom_length]

/-!
### C6: idempotent level-tag appending
-/

theorem isEmpty_false_of_ne {α : Type} {l : List α} (h : l ≠ []) :
    l.isEmpty = false := by
  cases l with
  | nil => cases h rfl
  | cons a t => rfl

/-- C6 counterexample: with a level string carrying surrounding
whitespace, a tag already present as a token does NOT leave the level
string unchanged — the stripped level is returned instead. -/
theorem append_level_not_unchanged :
    append_level " COCA".data "COCA".data ",".data ≠ " COCA".data := by decide

/-- C6 amended: appending an empty (or whitespace-only) tag returns the
level unchanged; otherwise the tag is appended to the STRIPPED level
string — which equals the original whenever it carries no surrounding
whitespace: the stripped tag alone if the stripped level is empty, the
stripped level itself if the tag already occurs as an exact token
(splitting on the separator and stripping whitespace around tokens), and
the stripped level joined with the separator and the stripped tag
otherwise. -/
theorem append_level_spec (level add sep : List Char) (hsep : sep ≠ []) :
    (pyStrip add = [] → append_level level add sep = level)
  ∧ (pyStrip add ≠ [] → pyStrip level = [] →
      append_level level add sep = pyStrip add)
  ∧ (pyStrip add ≠ [] → pyStrip level ≠ [] →
      pyStrip add ∈ (pySplit sep (pyStrip level)).map pyStrip →
      append_level level add sep = pyStrip level)
  ∧ (pyStrip add ≠ [] → pyStrip level ≠ [] →
      pyStrip add ∉ (pySplit sep (pyStrip level)).map pyStrip →
      append_level level add sep = pyStrip level ++ sep ++ pyStrip add) := by
  refine ⟨?_, ?_, ?_, ?_⟩
  · intro h
    rw [append_level, if_pos (by rw [h]; rfl)]
  · intro ha hl
    rw [append_level, if_neg (by rw [isEmpty_false_of_ne ha]; simp),
      if_pos (by rw [hl]; rfl)]
  · intro ha hl hmem
    rw [append_level, if_neg (by rw [isEmpty_false_of_ne ha]; simp),
      if_neg (by rw [isEmpty_false_of_ne hl]; simp), if_pos hmem]
  · intro ha hl hmem
    rw [append_level, if_neg (by rw [isEmpty_false_of_ne ha]; simp),
      if_neg (by rw [isEmpty_false_of_ne hl]; simp), if_neg hmem]

/-- Witness for C6: appending a fresh tag onto a clean level joins it with
the separator. -/
theorem append_level_spec_witness :
    append_level "COCA".data "初中".data ",".data =
      pyStrip "COCA".data ++ ",".data ++ pyStrip "初中".data :=
  (append_level_spec "COCA".data "初中".data ",".data (by decide)).2.2.2
    (by decide) (by decide) (by decide)

/-!
### C3: de-duplication contracts of the two extractors
-/

theorem writeLoopTagged_map_lower (ws seen : List (List Char)) :
    (writeLoopTagged true false seen ws).map pyLower =
      firstOccurrences seen (ws.map pyLower) := by
  induction ws generalizing seen with
  | nil => rfl
  | cons w0 rest ih =>
    by_cases h : pyLower w0 ∈ seen
    · simp [writeLoopTagged, firstOccurrences, h, ih seen]
    · simp [writeLoopTagged, firstOccurrences, h, ih (pyLower w0 :: seen)]

theorem writeLoopGeneric_eq_firstOcc (ws seen : List (List Char)) :
    writeLoopGeneric true false seen ws = firstOccurrences seen ws := by
  induction ws generalizing seen with
  | nil => rfl
  | cons w0 rest ih =>
    by_cases h : w0 ∈ seen
    · simp [writeLoopGeneric, firstOccurrences, h, ih seen]
    · simp [writeLoopGeneric, firstOccurrences, h, ih (w0 :: seen)]

theorem writeLoopTagged_keep (ws seen : List (List Char)) :
    writeLoopTagged false false seen ws = ws := by
  induction ws generalizing seen with
  | nil => rfl
  | cons w0 rest ih => simp [writeLoopTagged, ih seen]

theorem writeLoopGeneric_keep (ws seen : List (List Char)) :
    writeLoopGeneric false false seen ws = ws := by
  induction ws generalizing seen with
  | nil => rfl
  | cons w0 rest ih => simp [writeLoopGeneric, ih seen]

theorem firstOccurrences_nodup (ws seen : List (List Char)) :
    (firstOccurrences seen ws).Nodup ∧
      ∀ x ∈ firstOccurrences seen ws, x ∉ seen := by
  induction ws generalizing seen with
  | nil => exact ⟨List.nodup_nil, by intro x hx; cases hx⟩
  | cons w0 rest ih =>
    by_cases h : w0 ∈ seen
    · rw [firstOccurrences, if_pos h]
      exact ih seen
    · rw [firstOccurrences, if_neg h]
      obtain ⟨hnd, hout⟩ := ih (w0 :: seen)
      refine ⟨List.nodup_cons.mpr ⟨?_, hnd⟩, ?_⟩
      · intro hmem
        exact (hout w0 hmem) (List.mem_cons_self w0 seen)
      · intro x hx
        rcases List.mem_cons.mp hx with h1 | h2
        · exact h1 ▸ h
        · intro hxs
          exact (hout x h2) (List.mem_cons_of_mem _ hxs)

/-- C3 counterexample: in default mode the GENERIC extractor's output for
`["Apple", "apple"]` contains the lowercase-normalised word `apple` twice,
not exactly once — its de-duplication key is the exact word, not the
lowercase word. -/
theorem generic_dedup_not_case_insensitive :
    ((write_words_generic true false ["Apple".data, "apple".data]).map pyLower).count
      "apple".data ≠ 1 := by decide

/-- C3 amended: in default mode the TAGGED extractor keeps each
lowercase-normalised word exactly once, in order of first appearance (its
output, lowercased, is the first-occurrence de-duplication of the
lowercased input, and is duplicate-free); the GENERIC extractor
de-duplicates by the EXACT word instead, so case-variant repeats are each
kept; with `--keep-duplicates` both preserve every occurrence in order. -/
theorem write_words_dedup_spec (ws : List (List Char)) :
    (write_words_tagged true false ws).map pyLower =
      firstOccurrences [] (ws.map pyLower)
  ∧ ((write_words_tagged true false ws).map pyLower).Nodup
  ∧ write_words_generic true false ws = firstOccurrences [] ws
  ∧ (write_words_generic true false ws).Nodup
  ∧ write_words_tagged false false ws = ws
  ∧ write_words_generic false false ws = ws := by
  refine ⟨writeLoopTagged_map_lower ws [], ?_, writeLoopGeneric_eq_firstOcc ws [], ?_,
    writeLoopTagged_keep ws [], writeLoopGeneric_keep ws []⟩
  · rw [write_words_tagged, writeLoopTagged_map_lower ws []]
    exact (firstOccurrences_nodup (ws.map pyLower) []).1
  · rw [write_words_generic, writeLoopGeneric_eq_firstOcc ws []]
    exact (firstOccurrences_nodup ws []).1

/-!
### A library about `pyStrip` and separator tokens (for C5 and C10)
-/

theorem pyStrip_nil : pyStrip [] = [] := rfl

/-- A string whose first and last characters are not whitespace is fixed
by `pyStrip`. -/
theorem pyStrip_eq_self_of_ends (s : List Char)
    (h1 : ∀ c, s.head? = some c → isPyWs c = false)
    (h2 : ∀ c, s.getLast? = some c → isPyWs c = false) :
    pyStrip s = s := by
  cases s with
  | nil => rfl
  | cons c t =>
    rw [pyStrip, pyLstrip, List.dropWhile_cons_of_neg (by simp [h1 c rfl]), pyRstrip]
    rcases hrev : (c :: t).reverse with _ | ⟨d, u⟩
    · simp at hrev
    · have hd : (c :: t).getLast? = some d := by
        rw [← List.head?_reverse, hrev]
        rfl
      rw [List.dropWhile_cons_of_neg (by simp [h2 d hd]), ← hrev, List.reverse_reverse]

/-- The head of a stripped string is not whitespace. -/
theorem pyStrip_head (s : List Char) (c : Char) (h : (pyStrip s).head? = some c) :
    isPyWs c = false := by
  have hpre : pyStrip s <+: pyLstrip s := by
    have h0 : (pyLstrip s).reverse.dropWhile isPyWs <:+ (pyLstrip s).reverse :=
      List.dropWhile_suffix isPyWs
    have hp := (List.reverse_prefix).mpr h0
    rw [List.reverse_reverse] at hp
    exact hp
  obtain ⟨t, ht⟩ := hpre
  have hh : (pyLstrip s).head? = some c := by
    rw [← ht]
    cases hps : pyStrip s with
    | nil => rw [hps] at h; cases h
    | cons a u =>
      rw [hps] at h
      simpa using h
  have := List.head?_dropWhile_not isPyWs s
  rw [pyLstrip] at hh
  rw [hh] at this
  exact this

/-- The last character of a stripped string is not whitespace. -/
theorem pyStrip_getLast (s : List Char) (c : Char)
    (h : (pyStrip s).getLast? = some c) : isPyWs c = false := by
  rw [pyStrip, pyRstrip, ← List.head?_reverse, List.reverse_reverse] at h
  have := List.head?_dropWhile_not isPyWs (pyLstrip s).reverse
  rw [h] at this
  exact this

/-- `str.strip()` is idempotent. -/
theorem pyStrip_idem (s : List Char) : pyStrip (pyStrip s) = pyStrip s :=
  pyStrip_eq_self_of_ends (pyStrip s) (pyStrip_head s) (pyStrip_getLast s)

theorem splitOnChar_ne_nil (d : Char) (s : List Char) : splitOnChar d s ≠ [] := by
  cases s with
  | nil => simp [splitOnChar]
  | cons c cs =>
    rw [splitOnChar]
    by_cases h : c = d
    · simp [h]
    · rw [if_neg h]
      rcases hs : splitOnChar d cs with _ | ⟨g, gs⟩ <;> simp

theorem splitOnChar_of_not_mem (d : Char) (s : List Char) (h : d ∉ s) :
    splitOnChar d s = [s] := by
  induction s with
  | nil => rfl
  | cons c cs ih =>
    have hc : ¬ c = d := fun hcd => h (hcd ▸ List.mem_cons_self c cs)
    rw [splitOnChar, if_neg hc, ih (fun hm => h (List.mem_cons_of_mem c hm))]

theorem splitOnChar_append (d : Char) (x y : List Char) :
    splitOnChar d (x ++ d :: y) = splitOnChar d x ++ splitOnChar d y := by
  induction x with
  | nil => simp [splitOnChar]
  | cons a t ih =>
    by_cases ha : a = d
    · rw [List.cons_append, splitOnChar, if_pos ha, ih, splitOnChar, if_pos ha,
        List.cons_append]
    · rcases ht : splitOnChar d t with _ | ⟨g, gs⟩
      · exact absurd ht (splitOnChar_ne_nil d t)
      · rw [List.cons_append, splitOnChar, if_neg ha, ih, ht, splitOnChar, if_neg ha, ht]
        rfl

/-- The tokens of a level string for a one-character separator: split on
the separator, strip each piece (as `append_level` does). -/
def tokensOf (c : Char) (s : List Char) : List (List Char) :=
  (splitOnChar c s).map pyStrip

theorem tokensOf_append (c : Char) (x y : List Char) :
    tokensOf c (x ++ c :: y) = tokensOf c x ++ tokensOf c y := by
  rw [tokensOf, splitOnChar_append, List.map_append]
  rfl

theorem tokensOf_of_not_mem (c : Char) (u : List Char) (h : c ∉ u) :
    tokensOf c u = [pyStrip u] := by
  rw [tokensOf, splitOnChar_of_not_mem c u h]
  rfl

theorem tokensOf_nil (c : Char) : tokensOf c [] = [[]] := rfl

/-- The scanner of Python `split` agrees with `splitOnChar` on
one-character separators. -/
theorem isPrefixOf_single (c a : Char) (t : List Char) :
    List.isPrefixOf [c] (a :: t) = (c == a) := by
  simp [List.isPrefixOf]

theorem pySplitAux_single (c : Char) (s : List Char) :
    ∀ fuel acc, s.length ≤ fuel →
      pySplitAux c [] fuel acc s =
        match splitOnChar c s with
        | [] => [acc.reverse]
        | g :: gs => (acc.reverse ++ g) :: gs := by
  induction s with
  | nil =>
    intro fuel acc hf
    cases fuel <;> simp [pySplitAux, splitOnChar]
  | cons a t ih =>
    intro fuel acc hf
    match fuel with
    | 0 => simp at hf
    | fuel + 1 =>
      have hft : t.length ≤ fuel := by
        simp only [List.length_cons] at hf
        omega
      by_cases ha : c = a
      · rw [pySplitAux, if_pos (by rw [isPrefixOf_single]; exact beq_iff_eq.mpr ha)]
        simp only [List.length_nil, List.drop_zero]
        rw [ih fuel [] hft, splitOnChar, if_pos ha.symm]
        rcases ht : splitOnChar c t with _ | ⟨g, gs⟩
        · exact absurd ht (splitOnChar_ne_nil c t)
        · simp
      · rw [pySplitAux,
          if_neg (by rw [isPrefixOf_single]; simp only [beq_iff_eq]; exact fun h => ha h),
          ih fuel (a :: acc) hft, splitOnChar, if_neg (fun h => ha h.symm)]
        rcases ht : splitOnChar c t with _ | ⟨g, gs⟩
        · exact absurd ht (splitOnChar_ne_nil c t)
        · simp

theorem pySplit_single (c : Char) (s : List Char) :
    pySplit [c] s = splitOnChar c s := by
  rw [pySplit, pySplitAux_single c s s.length [] (Nat.le_refl _)]
  rcases hs : splitOnChar c s with _ | ⟨g, gs⟩
  · exact absurd hs (splitOnChar_ne_nil c s)
  · simp

theorem append_level_empty_tag (v t sep : List Char) (ht : pyStrip t = []) :
    append_level v t sep = v := by
  rw [append_level, if_pos (by rw [ht]; rfl)]

/-- Shape of `append_level` for a one-character separator and a stripped
level value. -/
theorem append_level_cases (v t : List Char) (c : Char) (hv : pyStrip v = v)
    (ht : pyStrip t ≠ []) :
    append_level v t [c] =
      if v = [] then pyStrip t
      else if pyStrip t ∈ tokensOf c v then v
      else v ++ c :: pyStrip t := by
  rw [append_level, if_neg (by rw [isEmpty_false_of_ne ht]; simp), hv]
  by_cases hvnil : v = []
  · rw [if_pos (by rw [hvnil]; rfl), if_pos hvnil]
  · rw [if_neg (by rw [isEmpty_false_of_ne hvnil]; simp), if_neg hvnil,
      pySplit_single, ← tokensOf]
    by_cases hmem : pyStrip t ∈ tokensOf c v
    · rw [if_pos hmem, if_pos hmem]
    · rw [if_neg hmem, if_neg hmem]
      simp

theorem mem_singleton_tokens (c : Char) (t : List Char) (hc : c ∉ pyStrip t) :
    pyStrip t ∈ tokensOf c (pyStrip t) := by
  rw [tokensOf_of_not_mem c (pyStrip t) hc, pyStrip_idem]
  exact List.mem_singleton_self _

/-- Appending preserves strippedness of the level. -/
theorem pyStrip_append_level (v t : List Char) (c : Char) (hv : pyStrip v = v) :
    pyStrip (append_level v t [c]) = append_level v t [c] := by
  by_cases ht : pyStrip t = []
  · rw [append_level_empty_tag v t [c] ht, hv]
  · rw [append_level_cases v t c hv ht]
    by_cases hvnil : v = []
    · rw [if_pos hvnil]
      exact pyStrip_idem t
    · rw [if_neg hvnil]
      by_cases hmem : pyStrip t ∈ tokensOf c v
      · rw [if_pos hmem, hv]
      · rw [if_neg hmem]
        refine pyStrip_eq_self_of_ends _ ?_ ?_
        · intro a ha
          rcases hvc : v with _ | ⟨v0, vr⟩
          · exact absurd hvc hvnil
          · rw [hvc, List.cons_append, List.head?_cons] at ha
            have : v.head? = some a := by rw [hvc, List.head?_cons, ha]
            exact pyStrip_head v a (hv.symm ▸ this)
        · intro a ha
          rcases hpt : pyStrip t with _ | ⟨p0, pr⟩
          · exact absurd hpt ht
          · rw [hpt, List.getLast?_append] at ha
            have h2 : (c :: p0 :: pr).getLast? = some a := by
              rcases hg : (c :: p0 :: pr).getLast? with _ | b
              · simp at hg
              · rw [hg] at ha
                simpa using ha
            rw [List.getLast?_cons_cons] at h2
            exact pyStrip_getLast t a (by rw [hpt]; exact h2)

/-- A non-empty token of the level survives an append. -/
theorem mem_tokensOf_append_level (x v t : List Char) (c : Char) (hx : x ≠ [])
    (hv : pyStrip v = v) (hmem : x ∈ tokensOf c v) :
    x ∈ tokensOf c (append_level v t [c]) := by
  by_cases ht : pyStrip t = []
  · rw [append_level_empty_tag v t [c] ht]
    exact hmem
  · rw [append_level_cases v t c hv ht]
    by_cases hvnil : v = []
    · rw [hvnil, tokensOf_nil] at hmem
      exact absurd (List.mem_singleton.mp hmem) hx
    · rw [if_neg hvnil]
      by_cases hin : pyStrip t ∈ tokensOf c v
      · rw [if_pos hin]
        exact hmem
      · rw [if_neg hin, tokensOf_append]
        exact List.mem_append_left _ hmem

/-- After appending a tag whose stripped form does not contain the
separator, that stripped form is a token of the result. -/
theorem self_mem_tokensOf_append_level (v t : List Char) (c : Char)
    (hv : pyStrip v = v) (ht : pyStrip t ≠ []) (hc : c ∉ pyStrip t) :
    pyStrip t ∈ tokensOf c (append_level v t [c]) := by
  rw [append_level_cases v t c hv ht]
  by_cases hvnil : v = []
  · rw [if_pos hvnil]
    exact mem_singleton_tokens c t hc
  · rw [if_neg hvnil]
    by_cases hin : pyStrip t ∈ tokensOf c v
    · rw [if_pos hin]
      exact hin
    · rw [if_neg hin, tokensOf_append]
      exact List.mem_append_right _ (mem_singleton_tokens c t hc)

/-- A tag already present as a token of a stripped non-trivial level is
absorbed: `append_level` returns the level unchanged. -/
theorem append_level_absorbed (v t : List Char) (c : Char) (hv : pyStrip v = v)
    (ht : pyStrip t ≠ []) (hmem : pyStrip t ∈ tokensOf c v) :
    append_level v t [c] = v := by
  rw [append_level_cases v t c hv ht]
  have hvnil : v ≠ [] := by
    intro hnil
    rw [hnil, tokensOf_nil] at hmem
    exact ht (List.mem_singleton.mp hmem)
  rw [if_neg hvnil, if_pos hmem]

/-- The level value after folding `append_level` over a list of tags. -/
def applyTags (c : Char) (b : List Char) (ts : List (List Char)) : List Char :=
  ts.foldl (fun acc t => append_level acc t [c]) b

theorem applyTags_nil (c : Char) (b : List Char) : applyTags c b [] = b := rfl

theorem applyTags_cons (c : Char) (b t : List Char) (ts : List (List Char)) :
    applyTags c b (t :: ts) = applyTags c (append_level b t [c]) ts := rfl

theorem applyTags_append (c : Char) (b : List Char) (ts1 ts2 : List (List Char)) :
    applyTags c b (ts1 ++ ts2) = applyTags c (applyTags c b ts1) ts2 := by
  rw [applyTags, applyTags, applyTags, List.foldl_append]

theorem pyStrip_applyTags (c : Char) (v : List Char) (ts : List (List Char))
    (hv : pyStrip v = v) : pyStrip (applyTags c v ts) = applyTags c v ts := by
  induction ts generalizing v with
  | nil => exact hv
  | cons t ts ih =>
    rw [applyTags_cons]
    exact ih (append_level v t [c]) (pyStrip_append_level v t c hv)

theorem mem_tokensOf_applyTags (x : List Char) (c : Char) (v : List Char)
    (ts : List (List Char)) (hx : x ≠ []) (hv : pyStrip v = v)
    (hmem : x ∈ tokensOf c v) : x ∈ tokensOf c (applyTags c v ts) := by
  induction ts generalizing v with
  | nil => exact hmem
  | cons t ts ih =>
    rw [applyTags_cons]
    exact ih (append_level v t [c]) (pyStrip_append_level v t c hv)
      (mem_tokensOf_append_level x v t c hx hv hmem)

/-- Every applied tag ends up as a token of the final level. -/
theorem tag_mem_tokensOf_applyTags (c : Char) (v : List Char)
    (ts : List (List Char)) (hv : pyStrip v = v)
    (hgood : ∀ t ∈ ts, c ∉ pyStrip t) :
    ∀ t ∈ ts, pyStrip t ≠ [] → pyStrip t ∈ tokensOf c (applyTags c v ts) := by
  induction ts generalizing v with
  | nil => intro t ht; cases ht
  | cons t0 ts ih =>
    intro t ht htne
    rw [applyTags_cons]
    rcases List.mem_cons.mp ht with rfl | hts
    · exact mem_tokensOf_applyTags (pyStrip t) c (append_level v t [c]) ts htne
        (pyStrip_append_level v t c hv)
        (self_mem_tokensOf_append_level v t c hv htne
          (hgood t (List.mem_cons_self t ts)))
    · exact ih (append_level v t0 [c]) (pyStrip_append_level v t0 c hv)
        (fun u hu => hgood u (List.mem_cons_of_mem t0 hu)) t hts htne

/-- Tags whose stripped forms are all already tokens are all absorbed. -/
theorem applyTags_fixed (c : Char) (v : List Char) (ts : List (List Char))
    (hv : pyStrip v = v)
    (habs : ∀ t ∈ ts, pyStrip t ≠ [] → pyStrip t ∈ tokensOf c v) :
    applyTags c v ts = v := by
  induction ts with
  | nil => rfl
  | cons t0 ts ih =>
    rw [applyTags_cons]
    have hstep : append_level v t0 [c] = v := by
      by_cases ht : pyStrip t0 = []
      · exact append_level_empty_tag v t0 [c] ht
      · exact append_level_absorbed v t0 c hv ht
          (habs t0 (List.mem_cons_self t0 ts) ht)
    rw [hstep]
    exact ih (fun u hu => habs u (List.mem_cons_of_mem t0 hu))

/-- Core idempotence: re-applying the same tags onto the stripped result
of a first application changes nothing, provided no (stripped) tag
contains the separator character. -/
theorem applyTags_idem (c : Char) (base : List Char) (ts : List (List Char))
    (hb : pyStrip base = base) (hgood : ∀ t ∈ ts, c ∉ pyStrip t) :
    applyTags c (pyStrip (applyTags c base ts)) ts = applyTags c base ts := by
  rw [pyStrip_applyTags c base ts hb]
  exact applyTags_fixed c (applyTags c base ts) ts (pyStrip_applyTags c base ts hb)
    (tag_mem_tokensOf_applyTags c base ts hb hgood)

/-!
### C5: idempotence of `--merge-existing-output`
-/

/-- The tags the conversion loop tries to append to a row, in order: the
`--level-words` tag, then the matching label names. -/
def rowTags (level_value : List Char) (level_words : Option (List (List Char)))
    (label_sets : List (List Char × List (List Char))) (wl : List Char) :
    List (List Char) :=
  (if levelWordsHit level_words wl then [level_value] else []) ++
    (if !label_sets.isEmpty && !wl.isEmpty then
      (label_sets.filter (fun p => p.2.contains wl)).map Prod.fst
    else [])

theorem foldl_append_level_filter (c : Char)
    (P : List Char × List (List Char) → Bool)
    (ls : List (List Char × List (List Char))) (b : List Char) :
    ls.foldl (fun acc p => if P p then append_level acc p.1 [c] else acc) b =
      applyTags c b ((ls.filter P).map Prod.fst) := by
  induction ls generalizing b with
  | nil => rfl
  | cons p ps ih =>
    by_cases hp : P p
    · rw [List.foldl_cons, if_pos hp, List.filter_cons_of_pos hp, List.map_cons,
        applyTags_cons, ih]
    · rw [List.foldl_cons, if_neg hp, List.filter_cons_of_neg hp, ih]

theorem rowLevelBody_eq_applyTags (level_value : List Char) (c : Char)
    (level_words : Option (List (List Char)))
    (label_sets : List (List Char × List (List Char))) (base wl : List Char) :
    rowLevelBody level_value [c] level_words label_sets base wl =
      applyTags c base (rowTags level_value level_words label_sets wl) := by
  rw [rowLevelBody, rowTags, applyTags_append]
  have hbase : applyTags c base (if levelWordsHit level_words wl then [level_value] else []) =
      (if levelWordsHit level_words wl then append_level base level_value [c] else base) := by
    by_cases h1 : levelWordsHit level_words wl = true
    · rw [if_pos h1, if_pos h1]
      rfl
    · rw [if_neg h1, if_neg h1, applyTags_nil]
  rw [hbase]
  by_cases h2 : (!label_sets.isEmpty && !wl.isEmpty) = true
  · rw [if_pos h2, if_pos h2, foldl_append_level_filter]
  · rw [if_neg h2, if_neg h2, applyTags_nil]

theorem rowTags_good (level_value : List Char) (c : Char)
    (level_words : Option (List (List Char)))
    (label_sets : List (List Char × List (List Char))) (wl : List Char)
    (hlv : c ∉ pyStrip level_value) (hlbl : ∀ p ∈ label_sets, c ∉ pyStrip p.1) :
    ∀ t ∈ rowTags level_value level_words label_sets wl, c ∉ pyStrip t := by
  intro t ht
  rw [rowTags] at ht
  rcases List.mem_append.mp ht with h | h
  · by_cases h1 : levelWordsHit level_words wl = true
    · rw [if_pos h1] at h
      rw [List.mem_singleton.mp h]
      exact hlv
    · rw [if_neg h1] at h
      cases h
  · by_cases h2 : (!label_sets.isEmpty && !wl.isEmpty) = true
    · rw [if_pos h2] at h
      obtain ⟨p, hp, hpt⟩ := List.mem_map.mp h
      rw [← hpt]
      exact hlbl p (List.mem_filter.mp hp).1
    · rw [if_neg h2] at h
      cases h

theorem rowLevelBody_idem (level_value : List Char) (c : Char)
    (level_words : Option (List (List Char)))
    (label_sets : List (List Char × List (List Char))) (base wl : List Char)
    (hb : pyStrip base = base) (hlv : c ∉ pyStrip level_value)
    (hlbl : ∀ p ∈ label_sets, c ∉ pyStrip p.1) :
    rowLevelBody level_value [c] level_words label_sets
        (pyStrip (rowLevelBody level_value [c] level_words label_sets base wl)) wl =
      rowLevelBody level_value [c] level_words label_sets base wl := by
  rw [rowLevelBody_eq_applyTags, rowLevelBody_eq_applyTags]
  exact applyTags_idem c base _ hb
    (rowTags_good level_value c level_words label_sets wl hlv hlbl)

theorem mem_enumFrom_fst_ge {α : Type} (l : List α) (n : Nat) (p : Nat × α)
    (h : p ∈ l.enumFrom n) : n ≤ p.1 := by
  induction l generalizing n with
  | nil => cases h
  | cons x xs ih =>
    rw [List.enumFrom] at h
    rcases List.mem_cons.mp h with he | ht
    · rw [he]
    · have := ih (n + 1) ht
      omega

theorem mkRow_rank (level level_value sep : List Char)
    (level_words : Option (List (List Char)))
    (existing : Option (Nat → Option (List Char)))
    (label_sets : List (List Char × List (List Char))) (n : Nat) (raw : List Char) :
    (mkRow level level_value sep level_words existing label_sets n raw).rank = n := rfl

theorem find?_convert_rank (level level_value sep : List Char)
    (level_words : Option (List (List Char)))
    (existing : Option (Nat → Option (List Char)))
    (label_sets : List (List Char × List (List Char))) (ks : List (List Char))
    (s i : Nat) (raw : List Char) (hmem : (i, raw) ∈ ks.enumFrom s) :
    ((ks.enumFrom s).map
        (fun p => mkRow level level_value sep level_words existing label_sets p.1 p.2)).find?
      (fun row => row.rank = i) =
      some (mkRow level level_value sep level_words existing label_sets i raw) := by
  induction ks generalizing s with
  | nil => cases hmem
  | cons k ks ih =>
    rw [List.enumFrom, List.map_cons]
    by_cases hsi : s = i
    · subst hsi
      have hk : raw = k := by
        rw [List.enumFrom] at hmem
        rcases List.mem_cons.mp hmem with he | ht
        · exact (Prod.mk.injEq s raw s k).mp (by rw [he]) |>.2
        · exfalso
          have := mem_enumFrom_fst_ge ks (s + 1) (s, raw) ht
          omega
      rw [hk]
      exact List.find?_cons_of_pos _ (by simp [mkRow_rank])
    · rw [List.find?_cons_of_neg _ (by simp [mkRow_rank]; exact hsi)]
      apply ih
      rw [List.enumFrom] at hmem
      rcases List.mem_cons.mp hmem with he | ht
      · exfalso
        exact hsi ((Prod.mk.injEq i raw s k).mp (by rw [he]) |>.1).symm
      · exact ht

/-- One merged row equals the corresponding fresh row, when the seeded
level is the stripped fresh level. -/
theorem mkRow_merge (level level_value : List Char) (c : Char)
    (level_words : Option (List (List Char)))
    (label_sets : List (List Char × List (List Char)))
    (g : Nat → Option (List Char)) (i : Nat) (raw : List Char)
    (hb : pyStrip level = level) (hlv : c ∉ pyStrip level_value)
    (hlbl : ∀ p ∈ label_sets, c ∉ pyStrip p.1)
    (hg : g i = some (pyStrip
      (mkRow level level_value [c] level_words none label_sets i raw).level)) :
    mkRow level level_value [c] level_words (some g) label_sets i raw =
      mkRow level level_value [c] level_words none label_sets i raw := by
  simp only [mkRow, hg, Option.getD_some]
  rw [rowLevelBody_idem level_value c level_words label_sets level
    (pyLower (extract_fields (rstripNl raw)).word) hb hlv hlbl]

/-- C5 counterexample: with a label name that contains the separator
character (`a,b` with separator `,`), re-running the converter seeded with
its own prior levels appends the tag again — the level values differ. -/
theorem convert_merge_not_idempotent :
    (convert [] "初中".data ",".data none
        (some (fun r =>
          ((convert [] "初中".data ",".data none none
              [("a,b".data, ["cat".data])] ["cat\tx".data]).find?
            (fun row => row.rank = r)).map (fun row => pyStrip row.level)))
        [("a,b".data, ["cat".data])] ["cat\tx".data]).map Row.level ≠
      (convert [] "初中".data ",".data none none
          [("a,b".data, ["cat".data])] ["cat\tx".data]).map Row.level := by
  decide

/-- C5 amended: re-running `convert` on unchanged input, seeding each
row's level from the prior run's (stripped, as
`load_existing_levels_by_rank` strips) level at the same rank, is a fixed
point — the whole row list is reproduced — PROVIDED the base level string
carries no surrounding whitespace, the separator is a single character,
and no stripped tag (the `--level-values` value or a label name) contains
the separator character.  (The CSV round trip `rank,level ↦ csv ↦
rank,level` is modelled as the identity on the rank and the stripped
level.) -/
theorem convert_merge_idempotent (lines : List (List Char))
    (level level_value : List Char) (c : Char)
    (level_words : Option (List (List Char)))
    (label_sets : List (List Char × List (List Char)))
    (hb : pyStrip level = level) (hlv : c ∉ pyStrip level_value)
    (hlbl : ∀ p ∈ label_sets, c ∉ pyStrip p.1) :
    convert level level_value [c] level_words
        (some (fun r =>
          ((convert level level_value [c] level_words none label_sets lines).find?
              (fun row => row.rank = r)).map (fun row => pyStrip row.level)))
        label_sets lines =
      convert level level_value [c] level_words none label_sets lines := by
  simp only [convert, convertAux_eq_enum]
  apply List.map_congr_left
  intro p hp
  obtain ⟨i, raw⟩ := p
  apply mkRow_merge level level_value c level_words label_sets _ i raw hb hlv hlbl
  rw [find?_convert_rank level level_value [c] level_words none label_sets
    (lines.filter keepLine) (0 + 1) i raw hp]
  rfl

/-- Witness for C5 at a one-line input with a level-words match and one
label set. -/
theorem convert_merge_idempotent_witness :
    convert [] "初中".data [','] (some ["cat".data])
        (some (fun r =>
          ((convert [] "初中".data [','] (some ["cat".data]) none
              [("小学".data, ["cat".data])] ["cat\tx".data]).find?
            (fun row => row.rank = r)).map (fun row => pyStrip row.level)))
        [("小学".data, ["cat".data])] ["cat\tx".data] =
      convert [] "初中".data [','] (some ["cat".data]) none
        [("小学".data, ["cat".data])] ["cat\tx".data] :=
  convert_merge_idempotent ["cat\tx".data] [] "初中".data ','
    (some ["cat".data]) [("小学".data, ["cat".data])] (by decide) (by decide)
    (by decide)

/-!
### C7: the DICTATION extraction path
-/

/-- The tab/space tokens of a line's quote-stripped remainder (the list
`_extract_from_dictation` scans). -/
def dictParts (raw : List Char) : List (List Char) :=
  splitRuns isTabSpace (stripQuotes ((splitOnce '\t' (pyStrip raw)).2.getD []))

theorem wordFullMatch_ne_nil (w : List Char) (h : wordFullMatch w = true) :
    w ≠ [] := by
  cases w with
  | nil => cases h
  | cons c cs => simp

/-- `findDictSucc` at the first `DICTATION` token that has a successor. -/
theorem findDictSucc_spec (parts : List (List Char)) (i : Nat)
    (hi : parts.get? i = some "DICTATION".data)
    (hsucc : i + 1 < parts.length)
    (hleast : ∀ j, j < i →
      ¬(parts.get? j = some "DICTATION".data ∧ j + 1 < parts.length)) :
    findDictSucc parts =
      (if wordFullMatch (pyStrip (parts.getD (i + 1) [])) then
        some (pyStrip (parts.getD (i + 1) []))
      else none) := by
  induction parts generalizing i with
  | nil => simp at hi
  | cons tok rest ih =>
    cases rest with
    | nil =>
      simp only [List.length_cons, List.length_nil] at hsucc
      omega
    | cons next rest2 =>
      cases i with
      | zero =>
        rw [List.get?_cons_zero] at hi
        have htok : tok = "DICTATION".data := by
          injection hi
        rw [findDictSucc, if_pos htok, List.getD_cons_succ, List.getD_cons_zero]
      | succ i0 =>
        have htok : ¬ tok = "DICTATION".data := by
          intro htok
          refine hleast 0 (Nat.succ_pos i0) ⟨by rw [List.get?_cons_zero, htok], ?_⟩
          simp only [List.length_cons] at hsucc ⊢
          omega
        rw [findDictSucc, if_neg htok, List.getD_cons_succ]
        apply ih i0
        · rw [List.get?_cons_succ] at hi
          exact hi
        · simp only [List.length_cons] at hsucc ⊢
          omega
        · intro j hj
          intro hcon
          refine hleast (j + 1) (by omega) ⟨?_, ?_⟩
          · rw [List.get?_cons_succ]
            exact hcon.1
          · simp only [List.length_cons]
            have := hcon.2
            simp only [List.length_cons] at this
            omega

/-- C7 counterexample: on the line `DICTATION<tab>x DICTATION abandon`
the first field is `DICTATION` and the token following the first eligible
`DICTATION` marker of the split remainder is `abandon`, which matches the
word pattern — yet nothing is yielded, because the quote-stripped
remainder does not START with `DICTATION`. -/
theorem dictation_counterexample :
    stripQuotes (splitOnce '\t' (pyStrip "DICTATION\tx DICTATION abandon".data)).1 =
      "DICTATION".data
  ∧ (dictParts "DICTATION\tx DICTATION abandon".data).get? 1 =
      some "DICTATION".data
  ∧ 2 < (dictParts "DICTATION\tx DICTATION abandon".data).length
  ∧ wordFullMatch
      (pyStrip ((dictParts "DICTATION\tx DICTATION abandon".data).getD 2 [])) = true
  ∧ iter_words ["DICTATION\tx DICTATION abandon".data] = [] := by decide

set_option maxHeartbeats 1000000 in
/-- C7 amended: for a non-blank, non-`#` line whose quote-stripped first
tab-field equals `DICTATION` AND whose quote-stripped remainder starts
with `DICTATION`, the extractor yields exactly the stripped token
following the first `DICTATION` token (of the remainder split on runs of
tabs/spaces) that has a successor, when that token matches the anchored
word pattern, and yields nothing for the line otherwise. -/
theorem dictation_extraction (raw : List Char) (i : Nat)
    (hne : (pyStrip raw).isEmpty = false)
    (hhash : ¬ (pyStrip raw).headD ' ' = '#')
    (hfirst : stripQuotes (splitOnce '\t' (pyStrip raw)).1 = "DICTATION".data)
    (hpre : List.isPrefixOf "DICTATION".data
      (stripQuotes ((splitOnce '\t' (pyStrip raw)).2.getD [])) = true)
    (hi : (dictParts raw).get? i = some "DICTATION".data)
    (hsucc : i + 1 < (dictParts raw).length)
    (hleast : ∀ j, j < i →
      ¬((dictParts raw).get? j = some "DICTATION".data ∧
        j + 1 < (dictParts raw).length)) :
    iter_words [raw] =
      (if wordFullMatch (pyStrip ((dictParts raw).getD (i + 1) [])) then
        [pyStrip ((dictParts raw).getD (i + 1) [])]
      else []) := by
  have hrec : truthy (reciteExtract "DICTATION".data) = false := by decide
  have hcond : ((pyStrip raw).isEmpty ||
      decide ((pyStrip raw).headD ' ' = '#')) = false := by
    rw [hne, decide_eq_false hhash]
    rfl
  simp only [iter_words, hcond, Bool.false_eq_true, if_false, hfirst, hrec]
  rw [if_pos trivial]
  simp only [dictationExtract, hpre, if_true]
  have hdp : splitRuns isTabSpace
      (stripQuotes ((splitOnce '	' (pyStrip raw)).2.getD [])) = dictParts raw := rfl
  rw [hdp, findDictSucc_spec (dictParts raw) i hi hsucc hleast]
  by_cases hw : wordFullMatch (pyStrip ((dictParts raw).getD (i + 1) [])) = true
  · rw [if_pos hw, if_pos hw]
    have hnon : ¬ pyStrip ((dictParts raw).getD (i + 1) []) = [] :=
      wordFullMatch_ne_nil _ hw
    simp only [isEmpty_false_of_ne hnon, Bool.false_eq_true, if_false]
  · rw [if_neg hw, if_neg hw]

/-- Witness for C7 on the line `DICTATION<tab>DICTATION abandon [x]`. -/
theorem dictation_extraction_witness :
    iter_words ["DICTATION\tDICTATION abandon [x]".data] =
      (if wordFullMatch
          (pyStrip ((dictParts "DICTATION\tDICTATION abandon [x]".data).getD 1 [])) then
        [pyStrip ((dictParts "DICTATION\tDICTATION abandon [x]".data).getD 1 [])]
      else []) :=
  dictation_extraction "DICTATION\tDICTATION abandon [x]".data 0 (by decide)
    (by decide) (by decide) (by decide) (by decide) (by decide)
    (by intro j hj; omega)

/-!
### C8: missing label-set files
-/

/-- C8 counterexample: an explicit `label=path` spec whose file does not
exist makes `build_label_sets` fail — explicit spec files are loaded
without an existence check. -/
theorem build_label_sets_missing_explicit_file :
    (build_label_sets (fun _ => none) ["a=missing.txt".data] none false).isOk =
      false := rfl

/-- The auto-discovery phase never fails: every well-known file is
existence-checked before loading. -/
theorem autoLoad_ok (fs : List Char → Option (List (List Char))) (dir : List Char) :
    ∀ (files : List (List Char × List Char))
      (m : List (List Char × List (List Char))),
      (autoLoad fs dir files m).isOk = true := by
  intro files
  induction files with
  | nil => intro m; rfl
  | cons f rest ih =>
    intro m
    obtain ⟨lbl, fname⟩ := f
    rw [autoLoad]
    rcases hfs : fs (dir ++ '/' :: fname) with _ | rows
    · rw [if_neg (by simp)]
      exact ih m
    · rw [if_pos (show (some rows).isSome = true from rfl), load_word_set, hfs]
      exact ih _

/-- C8 amended: the auto-discovered label files are existence-checked and
silently skipped when missing, so with auto labels and no explicit specs
`build_label_sets` succeeds for EVERY file system; an explicit
`label=path` spec, however, is loaded without an existence check and a
missing file raises an error. -/
theorem build_label_sets_auto_never_missing
    (fs : List Char → Option (List (List Char))) (dir : List Char) :
    (build_label_sets fs [] (some dir) true).isOk = true := by
  have h := autoLoad_ok fs dir AUTO_LABEL_FILES []
  rcases hauto : autoLoad fs dir AUTO_LABEL_FILES [] with e | m1
  · rw [hauto] at h
    cases h
  · have hred : build_label_sets fs [] (some dir) true =
        match autoLoad fs dir AUTO_LABEL_FILES [] with
        | Except.error e => Except.error e
        | Except.ok m2 =>
          match pickAuto m2 AUTO_LABEL_FILES [] with
          | (out1, seen) =>
            match pickSpecs m2 [] seen with
            | Except.error e => Except.error e
            | Except.ok out2 => Except.ok (out1 ++ out2) := rfl
    rw [hred, hauto]
    rcases hpick : pickAuto m1 AUTO_LABEL_FILES [] with ⟨out1, seen⟩
    rfl

/-!
### C9: the shape of the phonetic field
-/

/-- The specification's notion of a slash-delimited transcription span:
`/…/` with a non-empty interior containing no slash. -/
def isSlashSpanShape (m : List Char) : Bool :=
  decide (3 ≤ m.length) && decide (m.head? = some '/') &&
    decide (m.getLast? = some '/') && decide ('/' ∉ (m.drop 1).dropLast)

/-- Whether any contiguous substring of `s` is a slash span (bounded
search over all start offsets and lengths). -/
def hasSlashSpanB (s : List Char) : Bool :=
  (List.range (s.length + 1)).any fun i =>
    (List.range (s.length + 1)).any fun j =>
      isSlashSpanShape ((s.drop i).take j)

theorem take_length_takeWhile (p : Char → Bool) (u : List Char) :
    u.take (u.takeWhile p).length = u.takeWhile p := by
  induction u with
  | nil => rfl
  | cons a t ih =>
    by_cases h : p a
    · rw [List.takeWhile_cons_of_pos h, List.length_cons, List.take_succ_cons, ih]
    · rw [List.takeWhile_cons_of_neg h, List.length_nil, List.take_zero]

/-- A successful anchored match of `PHONETIC_RE` is a slash span and fits
in the suffix. -/
theorem phonAt_shape (t : List Char) (n : Nat) (h : phonAt t = some n) :
    isSlashSpanShape (t.take n) = true ∧ n ≤ t.length := by
  cases t with
  | nil => cases h
  | cons c u =>
    rw [phonAt] at h
    by_cases hc : c = '/'
    · rw [if_pos hc] at h
      by_cases hcond : 0 < (u.takeWhile (· ≠ '/')).length ∧
          (u.drop (u.takeWhile (· ≠ '/')).length).headD ' ' = '/' ∧
          ¬(u.drop (u.takeWhile (· ≠ '/')).length).isEmpty
      · rw [if_pos hcond] at h
        injection h with hn
        obtain ⟨hr, hslash, hne⟩ := hcond
        have hdropne : u.drop (u.takeWhile (· ≠ '/')).length ≠ [] := by
          intro hx
          rw [hx] at hne
          exact hne rfl
        obtain ⟨d, v, hdv⟩ := List.exists_cons_of_ne_nil hdropne
        have hd : d = '/' := by
          rw [hdv, List.headD_cons] at hslash
          exact hslash
        have htake1 : (u.drop (u.takeWhile (· ≠ '/')).length).take 1 = ['/'] := by
          rw [hdv, hd]
          rfl
        have htake : u.take ((u.takeWhile (· ≠ '/')).length + 1) =
            u.takeWhile (· ≠ '/') ++ ['/'] := by
          rw [List.take_add u (u.takeWhile (· ≠ '/')).length 1,
            take_length_takeWhile, htake1]
        have hform : (c :: u).take n = '/' :: (u.takeWhile (· ≠ '/') ++ ['/']) := by
          rw [← hn, hc]
          show ('/' :: u).take ((u.takeWhile (· ≠ '/')).length + 1 + 1) = _
          rw [List.take_succ_cons, htake]
        constructor
        · have hlen : ('/' :: (u.takeWhile (· ≠ '/') ++ ['/'])).length =
              (u.takeWhile (· ≠ '/')).length + 2 := by
            simp
          have hlast : ('/' :: (u.takeWhile (· ≠ '/') ++ ['/'])).getLast? = some '/' := by
            rw [← List.cons_append]
            exact List.getLast?_concat _
          have hint : '/' ∉ (('/' :: (u.takeWhile (· ≠ '/') ++ ['/'])).drop 1).dropLast := by
            rw [List.drop_succ_cons, List.drop_zero, List.dropLast_concat]
            intro hmem
            exact (by simpa using List.mem_takeWhile_imp hmem : ¬('/' : Char) = '/') rfl
          rw [hform, isSlashSpanShape]
          simp only [Bool.and_eq_true, decide_eq_true_eq]
          refine ⟨⟨⟨?_, rfl⟩, hlast⟩, hint⟩
          simp only [List.length_cons, List.length_append, List.length_singleton]
          omega
        · have hrlt : (u.takeWhile (· ≠ '/')).length < u.length := by
            by_contra hge
            exact hdropne (List.drop_eq_nil_iff.mpr (by omega))
          rw [← hn]
          simp only [List.length_cons]
          omega
      · rw [if_neg hcond] at h
        cases h
    · rw [if_neg hc] at h
      cases h

theorem searchPhon_some_shape (s : List Char) :
    ∀ m, searchPhon s = some m →
      isSlashSpanShape m = true ∧
        ∃ i j, i ≤ s.length ∧ j ≤ s.length ∧
          isSlashSpanShape ((s.drop i).take j) = true := by
  induction s with
  | nil => intro m h; cases h
  | cons c rest ih =>
    intro m h
    rw [searchPhon] at h
    rcases hp : phonAt (c :: rest) with _ | n
    · rw [hp] at h
      obtain ⟨hsh, i, j, hi, hj, hshape⟩ := ih m h
      refine ⟨hsh, i + 1, j, ?_, ?_, ?_⟩
      · simp only [List.length_cons]
        omega
      · simp only [List.length_cons]
        omega
      · rw [List.drop_succ_cons]
        exact hshape
    · rw [hp] at h
      injection h with hm
      obtain ⟨hsh, hle⟩ := phonAt_shape (c :: rest) n hp
      refine ⟨by rw [← hm]; exact hsh, 0, n, Nat.zero_le _, ?_, ?_⟩
      · simpa using hle
      · rw [List.drop_zero]
        exact hsh

theorem hasSlashSpanB_of_searchPhon (s m : List Char) (h : searchPhon s = some m) :
    hasSlashSpanB s = true := by
  obtain ⟨_, i, j, hi, hj, hshape⟩ := searchPhon_some_shape s m h
  rw [hasSlashSpanB, List.any_eq_true]
  exact ⟨i, List.mem_range.mpr (by omega),
    List.any_eq_true.mpr ⟨j, List.mem_range.mpr (by omega), hshape⟩⟩

theorem searchPhon_eq_none_of_no_span (s : List Char) (h : hasSlashSpanB s = false) :
    searchPhon s = none := by
  rcases hs : searchPhon s with _ | m
  · rfl
  · rw [hasSlashSpanB_of_searchPhon s m hs] at h
    cases h

theorem extract_fields_phonetic (line : List Char) :
    (extract_fields line).phonetic =
      (match searchPhon (leftField line) with
       | some m => m
       | none =>
         match searchPhon (rightField line) with
         | some m => m
         | none => []) := rfl

/-- C9: the phonetic field of every extracted row is either empty or a
slash-delimited span `/…/` with no interior slash; it is the first such
span of the left tab-field, else of the right; and a line with no slash
span in either field (e.g. one carrying only a bracketed transcription)
yields an empty phonetic field. -/
theorem phonetic_field_shape (line : List Char) :
    ((extract_fields line).phonetic = [] ∨
      isSlashSpanShape (extract_fields line).phonetic = true)
  ∧ (hasSlashSpanB (leftField line) = false →
      hasSlashSpanB (rightField line) = false →
      (extract_fields line).phonetic = [])
  ∧ (∀ m, searchPhon (leftField line) = some m →
      (extract_fields line).phonetic = m)
  ∧ (searchPhon (leftField line) = none →
      (extract_fields line).phonetic = (searchPhon (rightField line)).getD []) := by
  have heq := extract_fields_phonetic line
  rcases hL : searchPhon (leftField line) with _ | mL
  · rcases hR : searchPhon (rightField line) with _ | mR
    · rw [hL, hR] at heq
      refine ⟨Or.inl heq, fun _ _ => heq, ?_, ?_⟩
      · intro m hm
        exact Option.noConfusion hm
      · intro _
        rw [heq]
        rfl
    · rw [hL, hR] at heq
      refine ⟨Or.inr (by rw [heq]; exact (searchPhon_some_shape _ mR hR).1), ?_, ?_, ?_⟩
      · intro _ hBR
        rw [searchPhon_eq_none_of_no_span _ hBR] at hR
        exact Option.noConfusion hR
      · intro m hm
        exact Option.noConfusion hm
      · intro _
        rw [heq]
        rfl
  · rw [hL] at heq
    refine ⟨Or.inr (by rw [heq]; exact (searchPhon_some_shape _ mL hL).1), ?_, ?_, ?_⟩
    · intro hBL _
      rw [searchPhon_eq_none_of_no_span _ hBL] at hL
      exact Option.noConfusion hL
    · intro m hm
      injection hm with hm2
      rw [heq, hm2]
    · intro hnone
      exact Option.noConfusion hnone

/-- Witness for C9 on a line whose transcription is bracket-delimited and
slash-free: the phonetic field is empty. -/
theorem phonetic_field_shape_witness :
    (extract_fields "abandon\t[ə:bændən] vt.放弃".data).phonetic = [] :=
  (phonetic_field_shape "abandon\t[ə:bændən] vt.放弃".data).2.1 (by decide)
    (by decide)

/-!
### C10: the combined-string fallback for the word field
-/

theorem pyRstrip_prefix (x : List Char) : pyRstrip x <+: x := by
  have h0 : x.reverse.dropWhile isPyWs <:+ x.reverse := List.dropWhile_suffix isPyWs
  have hp := (List.reverse_prefix).mpr h0
  rw [List.reverse_reverse] at hp
  exact hp

theorem extract_fields_word (line : List Char) :
    (extract_fields line).word =
      (if (wordPrefixMatch (leftField line)).isEmpty then
        wordPrefixMatch (pyStrip (leftField line ++ ' ' :: rightField line))
      else wordPrefixMatch (leftField line)) := rfl

/-- C10 counterexample: a left tab-field beginning with a carriage return
(whitespace that `strip(' "\'')` does NOT remove) is non-empty and does
not begin with an ASCII letter, yet the combined-string fallback still
extracts a word. -/
theorem combined_fallback_counterexample :
    leftField "\rabandon\tx".data ≠ []
  ∧ isAsciiLetter ((leftField "\rabandon\tx".data).headD 'A') = false
  ∧ (extract_fields "\rabandon\tx".data).word ≠ [] := by decide

/-- C10 amended: when the stripped left tab-field is non-empty and starts
with a character that is neither an ASCII letter nor whitespace, the
extracted word is empty, whatever the right field holds; the combined
fallback can only produce a word when the stripped left field is empty or
begins with whitespace that the quote/space strip left behind. -/
theorem word_empty_of_left_head_nonletter (line : List Char)
    (h1 : leftField line ≠ [])
    (h2 : isAsciiLetter ((leftField line).headD 'A') = false)
    (h3 : isPyWs ((leftField line).headD 'A') = false) :
    (extract_fields line).word = [] := by
  obtain ⟨c, t, hct⟩ := List.exists_cons_of_ne_nil h1
  rw [extract_fields_word, hct]
  rw [hct, List.headD_cons] at h2 h3
  have hL : wordPrefixMatch (c :: t) = [] := by
    rw [wordPrefixMatch, if_neg (by rw [h2]; simp)]
  rw [hL, if_pos (show ([] : List Char).isEmpty = true from rfl), List.cons_append]
  have hstrip : pyStrip (c :: (t ++ ' ' :: rightField line)) =
      pyRstrip (c :: (t ++ ' ' :: rightField line)) := by
    rw [pyStrip, pyLstrip, List.dropWhile_cons_of_neg (by simp [h3])]
  rw [hstrip]
  rcases hps : pyRstrip (c :: (t ++ ' ' :: rightField line)) with _ | ⟨c2, u⟩
  · rfl
  · have hpre := pyRstrip_prefix (c :: (t ++ ' ' :: rightField line))
    rw [hps] at hpre
    obtain ⟨t2, ht2⟩ := hpre
    have hc2 : c2 = c := by
      rw [List.cons_append] at ht2
      exact ((List.cons.injEq c2 (u ++ t2) c (t ++ ' ' :: rightField line)).mp ht2).1
    rw [wordPrefixMatch, if_neg (by rw [hc2, h2]; simp)]

/-- Witness for C10 on a line whose left field starts with a period. -/
theorem word_empty_of_left_head_nonletter_witness :
    (extract_fields ".abc\tdef ghi".data).word = [] :=
  word_empty_of_left_head_nonletter ".abc\tdef ghi".data (by decide) (by decide)
    (by decide)
